import Mathlib

/-
Verification of the core of the yap grammar-driven parsing engine.

Shallow embedding of:
  src/basic/node.rs             : Node, to_ebnf, rename_reference, AbstractNode::action
  src/basic/node/parse_state.rs : State (memo cache), StackState and its poll functions
  src/basic/token.rs            : Token, iter_label, iter_grams
  src/basic/grammar.rs          : Grammar, add_element, with_renamed_element, parse_non_term
  src/basic/text.rs             : Text terminal matcher (literal strings)
  src/basic/node/serialization.rs : serde Serialize/Deserialize for Node
  src/parsers/naive.rs          : parse_recursive, the explicit-stack trampoline

Modelling conventions:
  - Rust usize is Nat (usize::MAX is the constant usizeMax below; no arithmetic
    in the modelled code paths overflows, all quantities are counts or offsets).
  - Sources are lists of characters and offsets count characters; the Rust code
    uses byte offsets into str, which coincides for the ASCII sources used here.
  - Rust BTreeMap is a by-key-sorted association list (mapInsert/mapRemove below);
    the per-parse memoization HashMap is an unordered association list.
  - Rust panics (out-of-bounds indexing, assert_ne!, explicit panic!()) are
    modelled as Except.error values carrying a "panic:" message, matching the
    spec's treatment of internal invariant violations as fatal errors.
  - The regex terminal variant delegates to the external regex crate, which is
    not part of this repository; its matcher is modelled as a fatal error and is
    never exercised by the claims, all of which use literal-string terminals.
-/

namespace Yap

/-- Rust's usize::MAX, the representation of an unbounded repetition maximum. -/
def usizeMax : Nat := 18446744073709551615

/-- A half-open span of source offsets; `stop` models the Rust field `end`
(a reserved word in Lean). -/
structure Span where
  start : Nat
  stop : Nat
deriving Repr, DecidableEq

/-- Diagnostic from src/parsers/naive.rs. -/
inductive Diagnostic where
  | Incomplete (span : Span) (expected : String)
deriving Repr, DecidableEq

/-- Token from src/basic/token.rs.  An inductive (not a structure) because it is
recursive through the children list; projections are defined below. -/
inductive Token : Type where
  | mk (span : Span) (gram : Option String) (tags : List String)
       (meta : List (String × String)) (children : List Token)
deriving Repr

def Token.span : Token → Span
  | .mk s _ _ _ _ => s

def Token.gram : Token → Option String
  | .mk _ g _ _ _ => g

def Token.tags : Token → List String
  | .mk _ _ t _ _ => t

def Token.meta : Token → List (String × String)
  | .mk _ _ _ m _ => m

def Token.children : Token → List Token
  | .mk _ _ _ _ c => c

/-- Grammar node from src/basic/node.rs.  `Rep`'s RangeInclusive<usize> is a
pair (start, end); `Meta`'s BTreeMap is a sorted association list. -/
inductive Node (T : Type) : Type where
  | Seq (children : List (Node T))
  | Alt (children : List (Node T))
  | Rep (node : Node T) (range : Nat × Nat)
  | Terminal (t : T)
  | NonTerm (name : String)
  | Tagged (node : Node T) (tag : String)
  | Meta (node : Node T) (meta : List (String × String))
deriving Repr

/-- Sorted-association-list lookup, modelling BTreeMap::get. -/
def mapLookup {α : Type} : List (String × α) → String → Option α
  | [], _ => none
  | (k', v) :: rest, k => if k' = k then some v else mapLookup rest k

/-- BTreeMap::contains_key. -/
def mapContains {α : Type} (m : List (String × α)) (k : String) : Bool :=
  (mapLookup m k).isSome

/-- BTreeMap::insert: replaces the value at an existing key, otherwise inserts
keeping the list sorted by key. -/
def mapInsert {α : Type} : List (String × α) → String → α → List (String × α)
  | [], k, v => [(k, v)]
  | (k', v') :: rest, k, v =>
    if k = k' then (k, v) :: rest
    else if k < k' then (k, v) :: (k', v') :: rest
    else (k', v') :: mapInsert rest k v

/-- BTreeMap::remove (drops the entry, returning the shortened map). -/
def mapRemove {α : Type} : List (String × α) → String → List (String × α)
  | [], _ => []
  | (k', v') :: rest, k => if k' = k then rest else (k', v') :: mapRemove rest k

-- Node::rename_reference from src/basic/node.rs (mutually with its traversal
-- of child lists).
mutual
def Node.rename_reference {T : Type} (old_name new_name : String) : Node T → Node T
  | .Seq elements => .Seq (renameList old_name new_name elements)
  | .Alt branches => .Alt (renameList old_name new_name branches)
  | .Rep node range => .Rep (node.rename_reference old_name new_name) range
  | .Terminal t => .Terminal t
  | .NonTerm name => if name = old_name then .NonTerm new_name else .NonTerm name
  | .Tagged node tag => .Tagged (node.rename_reference old_name new_name) tag
  | .Meta node meta => .Meta (node.rename_reference old_name new_name) meta

def renameList {T : Type} (old_name new_name : String) : List (Node T) → List (Node T)
  | [] => []
  | n :: ns => n.rename_reference old_name new_name :: renameList old_name new_name ns
end

/-- Vec<String>::join from the Rust standard library, used by Node::to_ebnf. -/
def ebnfJoin (sep : String) : List String → String
  | [] => ""
  | [s] => s
  | s :: rest => s ++ sep ++ ebnfJoin sep rest

-- Node::to_ebnf from src/basic/node.rs, parameterized by the terminal's
-- to_ebnf rendering E.  The panic on an unsupported repetition range is
-- modelled as a marker string (no claim exercises it).
mutual
def Node.to_ebnf {T : Type} (E : T → String) : Node T → String
  | .Seq nodes => ebnfJoin " " (ebnfList E nodes)
  | .Alt nodes => ebnfJoin " | " (ebnfList E nodes)
  | .Rep node range =>
      if range = (0, 1) then "[" ++ node.to_ebnf E ++ "]"
      else if range = (1, usizeMax) then node.to_ebnf E ++ "+"
      else if range = (0, usizeMax) then node.to_ebnf E ++ "*"
      else "panic: Unsupported repetition range in EBNF"
  | .Terminal value => E value
  | .NonTerm name => name
  | .Tagged node _ => node.to_ebnf E
  | .Meta node _ => node.to_ebnf E

def ebnfList {T : Type} (E : T → String) : List (Node T) → List String
  | [] => []
  | n :: ns => n.to_ebnf E :: ebnfList E ns
end

/-- The Text terminal from src/basic/text.rs: a literal string or a regex.
(The source's variant names String and Regex collide with Lean's String type
inside the Text namespace, so they are lowercased here.) -/
inductive Text : Type where
  | str (s : String)
  | regex (re : String)
deriving Repr, DecidableEq

/-- Rust's format!("{s:?}") on a string, as used by Text::to_ebnf: the string
in double quotes with quote and backslash escaped.  (Rust additionally escapes
control characters, which do not occur in any grammar considered here.) -/
def rustDebugQuote (s : String) : String :=
  "\"" ++ String.join (s.data.map fun c =>
    if c = '"' then "\\\"" else if c = '\\' then "\\\\" else String.singleton c) ++ "\""

/-- Text::to_ebnf from src/basic/text.rs. -/
def Text.to_ebnf : Text → String
  | .str s => rustDebugQuote s
  | .regex s => "/" ++ s ++ "/"

/-- TerminalNode::parses for Text from src/basic/text.rs.  The literal arm is
faithful; the regex arm delegates to the external regex crate (not part of this
repository) and is modelled as a fatal error — no claim exercises it. -/
def Text.parses : Text → List Char → Nat → Except String (Option Nat)
  | .str s, src, pos =>
      let e := pos + s.length
      if e ≤ src.length ∧ (src.drop pos).take s.length = s.data then .ok (some e)
      else .ok none
  | .regex _, _, _ => .error "regex matching not modelled"

/-- The TerminalNode trait from src/basic.rs: a matcher and an EBNF rendering. -/
structure TerminalNode (T : Type) where
  parses : T → List Char → Nat → Except String (Option Nat)
  to_ebnf : T → String

/-- The Text instance of TerminalNode. -/
def textTerminal : TerminalNode Text :=
  ⟨Text.parses, Text.to_ebnf⟩

/-- Parsed from src/parsers/naive.rs: a token, accumulated diagnostics, and the
optional "incomplete" marker naming the inner node that failed to complete. -/
structure Parsed (T : Type) where
  token : Token
  diagnostics : List Diagnostic
  incomplete : Option (Node T)

/-- The per-parse memoization cache of src/basic/node/parse_state.rs (a
HashMap, hence an unordered association list here). -/
def Cache (T : Type) : Type := List ((String × Nat) × Option (Parsed T))

/-- HashMap::get on the memoization cache. -/
def cacheLookup {T : Type} : Cache T → String × Nat → Option (Option (Parsed T))
  | [], _ => none
  | (k, v) :: rest, key => if k = key then some v else cacheLookup rest key

/-- StackState from src/basic/node/parse_state.rs: one frame kind per compound
node variant. -/
inductive StackFrame (T : Type) where
  | seq (elements : List (Node T)) (parsed : List Token) (diagnostics : List Diagnostic)
  | choice (start_pos : Nat) (elements : List (Node T)) (current : Nat)
           (parsed : List (Parsed T × Nat))
  | rep (start_pos : Nat) (element : Node T) (range : Nat × Nat)
        (parsed : List Token) (diagnostics : List Diagnostic)
  | nonTerm (start_pos : Nat) (name : String)
  | tagged (tag : String)
  | meta (m : List (String × String))

/-- StackPoll from src/parsers/naive.rs. -/
inductive StackPoll (T : Type) where
  | finished (parsed : Option (Parsed T))
  | feed (state : StackFrame T) (node : Node T) (pos : Nat)

/-- Action from src/parsers/naive.rs. -/
inductive Action (T : Type) where
  | push (save_state : StackFrame T) (next_node : Node T) (next_pos : Nat)
  | pop (parsed : Option (Parsed T))

/-- The sort key of StackState::poll_choice: (end offset, incomplete absent). -/
def altKey {T : Type} (p : Parsed T) : Nat × Bool :=
  (p.token.span.stop, p.incomplete.isNone)

/-- Strict lexicographic order on poll_choice sort keys ((usize, bool) with
false < true, as in Rust's Ord). -/
def keyLtb (a b : Nat × Bool) : Bool :=
  decide (a.1 < b.1) || (decide (a.1 = b.1) && (!a.2 && b.2))

/-- One insertion step of a stable ascending sort by key (elements are placed
before already-present elements of equal key, and the whole list is built with
foldr, so equal-key elements keep their original order — the behaviour of
Rust's stable sort_by_key). -/
def sortInsert {α : Type} (key : α → Nat × Bool) (x : α) : List α → List α
  | [] => [x]
  | y :: ys => if keyLtb (key y) (key x) then y :: sortInsert key x ys else x :: y :: ys

/-- Stable ascending sort by key, modelling Vec::sort_by_key. -/
def sortByKey {α : Type} (key : α → Nat × Bool) (l : List α) : List α :=
  l.foldr (sortInsert key) []

/-- The tail of StackState::poll_choice after the new result has been
appended to the candidate list and current has been incremented. -/
def pollChoiceCont {T : Type} (start_pos : Nat) (elements : List (Node T))
    (current : Nat) (parsed : List (Parsed T × Nat)) :
    Except String (StackPoll T) :=
  if current ≥ elements.length then
    if parsed.isEmpty then .ok (.finished none)
    else .ok (.finished ((sortByKey (fun pc => altKey pc.1) parsed).getLast?.map (·.1)))
  else
    match elements.get? current with
    | some el => .ok (.feed (.choice start_pos elements current parsed) el start_pos)
    | none => .error "panic: index out of bounds"

/-- StackState::poll_choice from src/basic/node/parse_state.rs. -/
def pollChoice {T : Type} (next : Option (Parsed T)) (start_pos : Nat)
    (elements : List (Node T)) (current : Nat) (parsed : List (Parsed T × Nat)) :
    Except String (StackPoll T) :=
  if elements.length = 0 then .error "panic: Empty choice"
  else pollChoiceCont start_pos elements (current + 1)
    (parsed ++ (match next with | some p => [(p, current)] | none => []))

/-- The span start of a repetition composite: the first accumulated child's
start, or the frame's start offset when nothing accumulated
(parsed.first().map(..).unwrap_or(start_pos) in the source). -/
def repStart (parsed : List Token) (start_pos : Nat) : Nat :=
  ((parsed.head?).map (fun f => f.span.start)).getD start_pos

/-- The span end of a repetition composite: the last accumulated child's end,
or the frame's start offset when nothing accumulated. -/
def repEnd (parsed : List Token) (start_pos : Nat) : Nat :=
  ((parsed.getLast?).map (fun f => f.span.stop)).getD start_pos

/-- The some(non-zero-width) arm of poll_repetition, after the child token and
diagnostics have been appended. -/
def pollRepetitionSome {T : Type} (element : Node T) (range : Nat × Nat)
    (parsed : List Token) (start_pos : Nat) (diagnostics : List Diagnostic)
    (incomplete : Option (Node T)) : Except String (StackPoll T) :=
  if parsed.length ≥ range.2 then
    .ok (.finished (some ⟨.mk ⟨repStart parsed start_pos, repEnd parsed start_pos⟩
      none [] [] parsed, diagnostics, incomplete⟩))
  else
    match parsed.getLast? with
    | some lastTok =>
      .ok (.feed (.rep start_pos element range parsed diagnostics) element lastTok.span.stop)
    | none => .error "panic: unwrap on empty Vec"

/-- The none (or zero-width) arm of poll_repetition. -/
def pollRepetitionNone {T : Type} (E : T → String) (element : Node T)
    (range : Nat × Nat) (parsed : List Token) (start_pos : Nat)
    (diagnostics : List Diagnostic) : Except String (StackPoll T) :=
  if parsed.length = 0 ∧ range.1 > 0 then .ok (.finished none)
  else if parsed.length < range.1 then
    .ok (.finished (some ⟨.mk ⟨repStart parsed start_pos, repEnd parsed start_pos⟩
      none [] [] parsed,
      diagnostics ++ [.Incomplete ⟨repEnd parsed start_pos, repEnd parsed start_pos⟩
        (element.to_ebnf E)],
      some element⟩))
  else
    .ok (.finished (some ⟨.mk ⟨repStart parsed start_pos, repEnd parsed start_pos⟩
      none [] [] parsed, diagnostics, none⟩))

/-- StackState::poll_repetition from src/basic/node/parse_state.rs, with the
zero-width guard in front. -/
def pollRepetition {T : Type} (E : T → String) (next : Option (Parsed T))
    (element : Node T) (range : Nat × Nat) (parsed : List Token)
    (start_pos : Nat) (diagnostics : List Diagnostic) :
    Except String (StackPoll T) :=
  match (match next with
    | some n => if n.token.span.stop ≤ n.token.span.start then none else some n
    | none => none) with
  | some p =>
    pollRepetitionSome element range (parsed ++ [p.token]) start_pos
      (diagnostics ++ p.diagnostics) p.incomplete
  | none => pollRepetitionNone E element range parsed start_pos diagnostics

/-- StackState::poll_non_terminal from src/basic/node/parse_state.rs: wrap the
child result under the rule name and insert into the cache if absent. -/
def pollNonTerminal {T : Type} (next : Option (Parsed T)) (name : String)
    (start_pos : Nat) (cache : Cache T) : StackPoll T × Cache T :=
  let key := (name, start_pos)
  let parsed := next.map fun p =>
    ⟨.mk ⟨p.token.span.start, p.token.span.stop⟩ (some name) [] [] [p.token],
     p.diagnostics, p.incomplete⟩
  let cache := if (cacheLookup cache key).isSome then cache else (key, parsed) :: cache
  (.finished parsed, cache)

/-- StackState::poll_tagged from src/basic/node/parse_state.rs. -/
def pollTagged {T : Type} (next : Option (Parsed T)) (tag : String) : StackPoll T :=
  match next with
  | some p =>
    .finished (some ⟨.mk p.token.span p.token.gram (p.token.tags ++ [tag])
                        p.token.meta p.token.children, p.diagnostics, p.incomplete⟩)
  | none => .finished none

/-- StackState::poll_meta from src/basic/node/parse_state.rs (BTreeMap::extend
inserts every pair, overwriting existing keys). -/
def pollMeta {T : Type} (next : Option (Parsed T)) (m : List (String × String)) :
    StackPoll T :=
  match next with
  | some p =>
    let newMeta := m.foldl (fun acc kv => mapInsert acc kv.1 kv.2) p.token.meta
    .finished (some ⟨.mk p.token.span p.token.gram p.token.tags newMeta
                        p.token.children, p.diagnostics, p.incomplete⟩)
  | none => .finished none

/-- The some(parsed) arm of poll_sequence, after the child token and
diagnostics have been appended. -/
def pollSequenceSome {T : Type} (elements : List (Node T)) (parsed : List Token)
    (diagnostics : List Diagnostic) (incomplete : Option (Node T)) :
    Except String (StackPoll T) :=
  if elements.length = parsed.length then
    match parsed.head?, parsed.getLast? with
    | some first, some last =>
      .ok (.finished (some ⟨.mk ⟨first.span.start, last.span.stop⟩ none [] [] parsed,
                            diagnostics, incomplete⟩))
    | _, _ => .error "panic: unwrap on empty Vec"
  else
    match parsed.getLast?, elements.get? parsed.length with
    | some last, some el =>
      .ok (.feed (.seq elements parsed diagnostics) el last.span.stop)
    | _, _ => .error "panic: index out of bounds"

/-- The none arm of poll_sequence. -/
def pollSequenceNone {T : Type} (E : T → String) (elements : List (Node T))
    (parsed : List Token) (diagnostics : List Diagnostic) :
    Except String (StackPoll T) :=
  if parsed.isEmpty then .ok (.finished none)
  else
    match parsed.head?, parsed.getLast?, elements.get? parsed.length with
    | some first, some last, some expected =>
      .ok (.finished (some ⟨.mk ⟨first.span.start, last.span.stop⟩ none [] [] parsed,
        diagnostics ++ [.Incomplete ⟨last.span.stop, last.span.stop⟩ (expected.to_ebnf E)],
        some expected⟩))
    | _, _, _ => .error "panic: index out of bounds"

/-- StackState::poll_sequence from src/basic/node/parse_state.rs. -/
def pollSequence {T : Type} (E : T → String) (next : Option (Parsed T))
    (elements : List (Node T)) (parsed : List Token)
    (diagnostics : List Diagnostic) : Except String (StackPoll T) :=
  if elements.length = 0 then .error "panic: Empty sequence"
  else match next with
  | some p =>
    pollSequenceSome elements (parsed ++ [p.token]) (diagnostics ++ p.diagnostics)
      p.incomplete
  | none => pollSequenceNone E elements parsed diagnostics

/-- StackState::poll, the dispatch over frame kinds. -/
def pollFrame {T : Type} (TN : TerminalNode T) (frame : StackFrame T)
    (next : Option (Parsed T)) (cache : Cache T) :
    Except String (StackPoll T × Cache T) :=
  match frame with
  | .seq elements parsed diagnostics =>
    (pollSequence TN.to_ebnf next elements parsed diagnostics).map (fun r => (r, cache))
  | .choice start_pos elements current parsed =>
    (pollChoice next start_pos elements current parsed).map (fun r => (r, cache))
  | .rep start_pos element range parsed diagnostics =>
    (pollRepetition TN.to_ebnf next element range parsed start_pos diagnostics).map
      (fun r => (r, cache))
  | .nonTerm start_pos name => .ok (pollNonTerminal next name start_pos cache)
  | .tagged tag => .ok (pollTagged next tag, cache)
  | .meta m => .ok (pollMeta next m, cache)

/-- AbstractNode::action for &Node<T> from src/basic/node.rs. -/
def nodeAction {T : Type} (TN : TerminalNode T) (rules : List (String × Node T))
    (src : List Char) (node : Node T) (pos : Nat) (cache : Cache T) :
    Except String (Action T) :=
  match node with
  | .Seq seq =>
    match seq.head? with
    | some first => .ok (.push (.seq seq [] []) first pos)
    | none => .error "panic: index out of bounds on empty Seq"
  | .Alt seq =>
    match seq.head? with
    | some first => .ok (.push (.choice pos seq 0 []) first pos)
    | none => .error "panic: index out of bounds on empty Alt"
  | .Rep node range => .ok (.push (.rep pos node range [] []) node pos)
  | .Terminal t =>
    match TN.parses t src pos with
    | .error e => .error e
    | .ok (some e) =>
      .ok (.pop (some ⟨.mk ⟨pos, e⟩ none [] [] [], [], none⟩))
    | .ok none => .ok (.pop none)
  | .NonTerm name =>
    match cacheLookup cache (name, pos) with
    | some cached => .ok (.pop cached)
    | none =>
      match mapLookup rules name with
      | none => .error ("No rule for non-terminal " ++ name)
      | some body => .ok (.push (.nonTerm pos name) body pos)
  | .Tagged node tag => .ok (.push (.tagged tag) node pos)
  | .Meta node m => .ok (.push (.meta m) node pos)

/-- Step from src/parsers/naive.rs. -/
inductive Step (T : Type) where
  | parsingNode (node : Node T) (pos : Nat)
  | polling (parsed : Option (Parsed T))

/-- One full state of the trampoline loop: the memo cache, the frame stack
(head is the top of the stack), and the current step. -/
structure Config (T : Type) where
  cache : Cache T
  stack : List (StackFrame T)
  step : Step T

/-- Outcome of one trampoline loop iteration. -/
inductive StepRes (T : Type) where
  | done (parsed : Option (Parsed T))
  | fatal (e : String)
  | next (c : Config T)

/-- The body of one parse_recursive loop iteration after the stack check: the
match on the current step (Step::ParsingNode computes an action,
Step::Polling hands the result to the top-of-stack frame). -/
def stepGo {T : Type} (TN : TerminalNode T) (rules : List (String × Node T))
    (src : List Char) (cache : Cache T) (stack : List (StackFrame T)) :
    Step T → StepRes T
  | .parsingNode node pos =>
    match nodeAction TN rules src node pos cache with
    | .error e => .fatal e
    | .ok (.push save next npos) => .next ⟨cache, save :: stack, .parsingNode next npos⟩
    | .ok (.pop parsed) => .next ⟨cache, stack, .polling parsed⟩
  | .polling parsed =>
    match stack with
    | [] => .done parsed
    | frame :: rest =>
      match pollFrame TN frame parsed cache with
      | .error e => .fatal e
      | .ok (.finished p, cache') => .next ⟨cache', rest, .polling p⟩
      | .ok (.feed f n pos, cache') => .next ⟨cache', f :: rest, .parsingNode n pos⟩

/-- One iteration of the parse_recursive loop from src/parsers/naive.rs:
check_stack (limit 1000), then either compute a node's action or poll the
top-of-stack frame. -/
def stepFn {T : Type} (TN : TerminalNode T) (rules : List (String × Node T))
    (src : List Char) (c : Config T) : StepRes T :=
  if c.stack.length > 1000 then .fatal "Recursion limit exceeded"
  else stepGo TN rules src c.cache c.stack c.step

/-- Result of running the trampoline with a fuel bound. -/
inductive RunRes (T : Type) where
  | ok (result : Option (Token × List Diagnostic))
  | fatal (e : String)
  | timeout

/-- Iterate stepFn, consuming one unit of fuel per loop iteration.  A done
outcome maps Parsed to (token, diagnostics) as parse_recursive does. -/
def runSteps {T : Type} (TN : TerminalNode T) (rules : List (String × Node T))
    (src : List Char) : Nat → Config T → RunRes T
  | 0, _ => .timeout
  | fuel + 1, c =>
    match stepFn TN rules src c with
    | .done p => .ok (p.map fun pp => (pp.token, pp.diagnostics))
    | .fatal e => .fatal e
    | .next c' => runSteps TN rules src fuel c'

/-- The initial configuration of parse_recursive: empty stack, fresh state,
ParsingNode(start, 0). -/
def initConfig {T : Type} (start : Node T) : Config T :=
  ⟨[], [], .parsingNode start 0⟩

/-- parse_recursive from src/parsers/naive.rs (with explicit fuel; claim C2
shows sufficient fuel always exists). -/
def parse_recursive {T : Type} (TN : TerminalNode T) (rules : List (String × Node T))
    (src : List Char) (start : Node T) (fuel : Nat) : RunRes T :=
  runSteps TN rules src fuel (initConfig start)

/-- Grammar from src/basic/grammar.rs. -/
structure Grammar (T : Type) where
  start : Option String
  rules : List (String × Node T)

/-- Grammar::parse_non_term from src/basic/grammar.rs: look up the start rule
and parse its body with a fresh State (the anyhow error on a missing start
rule is folded into RunRes.fatal). -/
def Grammar.parse_non_term {T : Type} (TN : TerminalNode T) (g : Grammar T)
    (non_term : String) (src : List Char) (fuel : Nat) : RunRes T :=
  match mapLookup g.rules non_term with
  | none => .fatal ("No rule for start node " ++ non_term)
  | some node => parse_recursive TN g.rules src node fuel

-- The derived PartialEq on Node (structural equality), parameterized by the
-- terminal's equality test.
mutual
def Node.beq {T : Type} (eqT : T → T → Bool) : Node T → Node T → Bool
  | .Seq a, .Seq b => beqList eqT a b
  | .Alt a, .Alt b => beqList eqT a b
  | .Rep a ra, .Rep b rb => Node.beq eqT a b && decide (ra = rb)
  | .Terminal a, .Terminal b => eqT a b
  | .NonTerm a, .NonTerm b => decide (a = b)
  | .Tagged a ta, .Tagged b tb => Node.beq eqT a b && decide (ta = tb)
  | .Meta a ma, .Meta b mb => Node.beq eqT a b && decide (ma = mb)
  | _, _ => false

def beqList {T : Type} (eqT : T → T → Bool) : List (Node T) → List (Node T) → Bool
  | [], [] => true
  | a :: as, b :: bs => Node.beq eqT a b && beqList eqT as bs
  | _, _ => false
end

-- PartialEq is reflexive when the terminal equality is, so a false comparison
-- really is a structural difference.
mutual
theorem Node.beq_refl {T : Type} (eqT : T → T → Bool)
    (heq : ∀ x, eqT x x = true) : ∀ (a : Node T), Node.beq eqT a a = true
  | .Seq a => by simp [Node.beq, beqList_refl eqT heq a]
  | .Alt a => by simp [Node.beq, beqList_refl eqT heq a]
  | .Rep a ra => by simp [Node.beq, Node.beq_refl eqT heq a]
  | .Terminal a => by simp [Node.beq, heq a]
  | .NonTerm a => by simp [Node.beq]
  | .Tagged a ta => by simp [Node.beq, Node.beq_refl eqT heq a]
  | .Meta a ma => by simp [Node.beq, Node.beq_refl eqT heq a]

theorem beqList_refl {T : Type} (eqT : T → T → Bool)
    (heq : ∀ x, eqT x x = true) : ∀ (l : List (Node T)), beqList eqT l l = true
  | [] => by simp [beqList]
  | a :: as => by simp [beqList, Node.beq_refl eqT heq a, beqList_refl eqT heq as]
end

/-- A Node comparison that returns false denotes genuinely different nodes
(the contrapositive of reflexivity). -/
theorem Node.ne_of_beq_false {T : Type} (eqT : T → T → Bool)
    (heq : ∀ x, eqT x x = true) (a b : Node T)
    (h : Node.beq eqT a b = false) : a ≠ b := by
  intro rfl_eq
  rw [rfl_eq] at h
  rw [Node.beq_refl eqT heq b] at h
  exact absurd h (by simp)

/-- Grammar::add_element from src/basic/grammar.rs.  Rust mutates self in
place and returns Result<()>; modelled as the pair of the result and the final
grammar.  Note the BTreeMap::remove happens before the conflict check, and on
the error path the insert is never reached. -/
def Grammar.add_element {T : Type} (eqT : T → T → Bool) (g : Grammar T)
    (name : String) (element : Node T) : Except String Unit × Grammar T :=
  let prev := mapLookup g.rules name
  let rules := mapRemove g.rules name
  match prev with
  | some prev =>
    if Node.beq eqT prev element = false then
      (.error ("Element " ++ name ++ " already exists and is different"),
       ⟨g.start, rules⟩)
    else
      (.ok (), ⟨g.start, mapInsert rules name element⟩)
  | none => (.ok (), ⟨g.start, mapInsert rules name element⟩)

/-- Grammar::has from src/basic/grammar.rs. -/
def Grammar.has {T : Type} (g : Grammar T) (name : String) : Bool :=
  mapContains g.rules name

/-- Grammar::with_renamed_element from src/basic/grammar.rs: fail if the old
name is absent or the new one present, move the rule, then update every
NonTerm reference in every rule body. -/
def Grammar.with_renamed_element {T : Type} (g : Grammar T)
    (name new_name : String) : Except String (Grammar T) :=
  if !g.has name then .error ("Element '" ++ name ++ "' not found")
  else if g.has new_name then .error ("Element '" ++ new_name ++ "' already exists")
  else
    match mapLookup g.rules name with
    | none => .error "panic: unwrap on None"
    | some element =>
      .ok ⟨g.start, (mapInsert (mapRemove g.rules name) new_name element).map
        (fun kv => (kv.1, kv.2.rename_reference name new_name))⟩

-- Subtree sizes of tokens, the termination measure of the queue traversals.
mutual
def Token.size : Token → Nat
  | .mk _ _ _ _ children => 1 + sizeList children

def sizeList : List Token → Nat
  | [] => 0
  | t :: ts => t.size + sizeList ts
end

theorem sizeList_append (a b : List Token) :
    sizeList (a ++ b) = sizeList a + sizeList b := by
  induction a with
  | nil => simp [sizeList]
  | cons t ts ih => simp [sizeList, ih]; omega

theorem Token.size_pos (t : Token) : 0 < t.size := by
  cases t with
  | mk s g tg m c => simp [Token.size]

/-- The shared queue loop of Token::iter_label and Token::iter_grams from
src/basic/token.rs, fully elaborated from the lazy iterator: pop the front of
the VecDeque, push the popped token's children at the back (this happens in
the matching and the non-matching branch alike), and yield the popped token
when the predicate holds. -/
def collectBy (p : Token → Bool) : List Token → List Token
  | [] => []
  | t :: q =>
    if p t then t :: collectBy p (q ++ t.children)
    else collectBy p (q ++ t.children)
termination_by q => sizeList q
decreasing_by
  all_goals
    simp only [sizeList, sizeList_append]
    cases t with
    | mk s g tg m c =>
      simp only [Token.size, Token.children]
      omega

/-- Token::iter_label from src/basic/token.rs (the predicate is the loop's
tags.iter().any(|tag| tag == label)). -/
def Token.iter_label (t : Token) (label : String) : List Token :=
  collectBy (fun tok => tok.tags.any (fun tag => tag = label)) [t]

/-- Token::iter_grams from src/basic/token.rs (the predicate is the loop's
gram.as_deref() == Some(gram)). -/
def Token.iter_grams (t : Token) (gram : String) : List Token :=
  collectBy (fun tok => tok.gram = some gram) [t]

/-- The plain breadth-first traversal order underlying the queue loop of
iter_label / iter_grams: pop the front, append the children at the back. -/
def bfsList : List Token → List Token
  | [] => []
  | t :: q => t :: bfsList (q ++ t.children)
termination_by q => sizeList q
decreasing_by
  simp only [sizeList, sizeList_append]
  cases t with
  | mk s g tg m c =>
    simp only [Token.size, Token.children]
    omega

theorem map_fst_comp_pair (d : Nat) (c : List Token) :
    List.map (Prod.fst ∘ fun cc => (cc, d)) c = c := by
  induction c with
  | nil => rfl
  | cons a as ih => simp only [List.map_cons, Function.comp_apply, ih]

/-- The queue measure of the breadth-first traversal with depths decreases
when the front pair is replaced by its children. -/
theorem bfsMeasure_lt (t : Token) (d : Nat) (q : List (Token × Nat)) :
    sizeList ((q ++ t.children.map (fun c => (c, d + 1))).map Prod.fst) <
    sizeList (((t, d) :: q).map Prod.fst) := by
  rw [List.map_append, sizeList_append, List.map_cons, List.map_map,
    map_fst_comp_pair]
  cases t with
  | mk s g tg m c =>
    simp only [sizeList, Token.size, Token.children]
    omega

/-- The breadth-first traversal with depths tracked, for reasoning about the
order in which descendants are visited. -/
def bfsPairs : List (Token × Nat) → List (Token × Nat)
  | [] => []
  | (t, d) :: q => (t, d) :: bfsPairs (q ++ t.children.map (fun c => (c, d + 1)))
termination_by q => sizeList (q.map Prod.fst)
decreasing_by
  exact bfsMeasure_lt t d q

-- The pre-order (depth-first, self first) traversal of a token tree, the
-- order the spec's claim asserts for the iterators.
mutual
def Token.preOrder : Token → List Token
  | .mk s g tg m c => .mk s g tg m c :: preOrderList c

def preOrderList : List Token → List Token
  | [] => []
  | t :: ts => t.preOrder ++ preOrderList ts
end

theorem preOrderList_append (a b : List Token) :
    preOrderList (a ++ b) = preOrderList a ++ preOrderList b := by
  induction a with
  | nil => simp [preOrderList]
  | cons t ts ih => simp [preOrderList, ih]

theorem collectBy_eq_filter (p : Token → Bool) (q : List Token) :
    collectBy p q = (bfsList q).filter p := by
  generalize hn : sizeList q = n
  induction n using Nat.strong_induction_on generalizing q with
  | _ n ih =>
    cases q with
    | nil => simp [collectBy, bfsList]
    | cons t rest =>
      have hlt : sizeList (rest ++ t.children) < n := by
        subst hn
        rw [sizeList_append, sizeList]
        cases t with
        | mk s g tg m c =>
          simp only [Token.size, Token.children]
          omega
      rw [collectBy, bfsList]
      by_cases hp : p t
      · rw [if_pos hp, List.filter_cons, if_pos hp]
        rw [ih _ hlt _ rfl]
      · rw [if_neg hp, List.filter_cons, if_neg hp]
        rw [ih _ hlt _ rfl]

theorem bfsList_perm_preOrderList (q : List Token) :
    (bfsList q).Perm (preOrderList q) := by
  generalize hn : sizeList q = n
  induction n using Nat.strong_induction_on generalizing q with
  | _ n ih =>
    cases q with
    | nil => simp [bfsList, preOrderList]
    | cons t rest =>
      have hlt : sizeList (rest ++ t.children) < n := by
        subst hn
        rw [sizeList_append, sizeList]
        cases t with
        | mk s g tg m c =>
          simp only [Token.size, Token.children]
          omega
      rw [bfsList, preOrderList]
      have hperm := ih _ hlt (rest ++ t.children) rfl
      rw [preOrderList_append] at hperm
      cases t with
      | mk s g tg m c =>
        simp only [Token.preOrder, Token.children] at hperm ⊢
        refine List.Perm.trans (hperm.cons _) ?_
        rw [List.cons_append]
        refine List.Perm.trans ((List.perm_append_comm).cons _) ?_
        exact List.Perm.refl _

/-- bfsList is bfsPairs with the depths forgotten. -/
theorem bfsList_eq_bfsPairs_map (ps : List (Token × Nat)) :
    bfsList (ps.map Prod.fst) = (bfsPairs ps).map Prod.fst := by
  generalize hn : sizeList (ps.map Prod.fst) = n
  induction n using Nat.strong_induction_on generalizing ps with
  | _ n ih =>
    cases ps with
    | nil => simp [bfsList, bfsPairs]
    | cons td q =>
      obtain ⟨t, d⟩ := td
      have hlt := bfsMeasure_lt t d q
      rw [hn] at hlt
      rw [List.map_cons, bfsList, bfsPairs, List.map_cons]
      have harg : (q.map Prod.fst) ++ t.children =
          (q ++ t.children.map (fun c => (c, d + 1))).map Prod.fst := by
        rw [List.map_append, List.map_map, map_fst_comp_pair]
      rw [harg, ih _ hlt _ rfl]

/-- The subtoken-at-depth relation: SubAt r y x means y occurs in the tree x
at depth r below x. -/
inductive SubAt : Nat → Token → Token → Prop where
  | refl (t : Token) : SubAt 0 t t
  | child {r : Nat} {y c x : Token} (hc : c ∈ x.children) (h : SubAt r y c) :
      SubAt (r + 1) y x

/-- Every subtoken of a token in the BFS queue appears in the BFS output, at
the corresponding depth. -/
theorem bfsPairs_mem_sub :
    ∀ (ps : List (Token × Nat)) (c : Token) (dc : Nat) (y : Token) (r : Nat),
      (c, dc) ∈ ps → SubAt r y c → (y, dc + r) ∈ bfsPairs ps := by
  intro ps
  generalize hn : sizeList (ps.map Prod.fst) = n
  induction n using Nat.strong_induction_on generalizing ps with
  | _ n ih =>
    intro c dc y r hmem hsub
    cases ps with
    | nil => simp at hmem
    | cons td q =>
      obtain ⟨t, d⟩ := td
      have hlt := bfsMeasure_lt t d q
      rw [hn] at hlt
      rw [bfsPairs]
      rcases List.mem_cons.mp hmem with hmem | hmem
      · injection hmem with h1 h2
        subst h1
        subst h2
        cases hsub with
        | refl _ => exact List.mem_cons_self _ _
        | @child r' y cc x hc hs =>
          refine List.mem_cons_of_mem _ ?_
          have hcc : (cc, dc + 1) ∈ q ++ c.children.map (fun z => (z, dc + 1)) :=
            List.mem_append_right _ (List.mem_map.mpr ⟨cc, hc, rfl⟩)
          have := ih _ hlt _ rfl cc (dc + 1) y r' hcc hs
          have harith : dc + 1 + r' = dc + (r' + 1) := by omega
          rwa [harith] at this
      · refine List.mem_cons_of_mem _ ?_
        exact ih _ hlt _ rfl c dc y r (List.mem_append_left _ hmem) hsub

/-- A proper descendant of the token emitted at BFS position i is emitted at a
strictly later position. -/
theorem bfsPairs_descendant_later :
    ∀ (ps : List (Token × Nat)) (i : Nat) (x : Token) (dx : Nat) (y : Token) (r : Nat),
      (bfsPairs ps).get? i = some (x, dx) → SubAt r y x → 0 < r →
      (y, dx + r) ∈ (bfsPairs ps).drop (i + 1) := by
  intro ps
  generalize hn : sizeList (ps.map Prod.fst) = n
  induction n using Nat.strong_induction_on generalizing ps with
  | _ n ih =>
    intro i x dx y r hget hsub hr
    cases ps with
    | nil => rw [bfsPairs] at hget; simp at hget
    | cons td q =>
      obtain ⟨t, d⟩ := td
      have hlt := bfsMeasure_lt t d q
      rw [hn] at hlt
      rw [bfsPairs] at hget ⊢
      cases i with
      | zero =>
        simp only [List.get?_cons_zero, Option.some.injEq] at hget
        injection hget with h1 h2
        subst h1
        subst h2
        simp only [List.drop_succ_cons, List.drop_zero]
        cases hsub with
        | refl _ => omega
        | @child r' y cc xx hc hs =>
          have hcc : (cc, d + 1) ∈ q ++ t.children.map (fun z => (z, d + 1)) :=
            List.mem_append_right _ (List.mem_map.mpr ⟨cc, hc, rfl⟩)
          have := bfsPairs_mem_sub _ cc (d + 1) y r' hcc hs
          have harith : d + 1 + r' = d + (r' + 1) := by omega
          rwa [harith] at this
      | succ i' =>
        simp only [List.get?_cons_succ] at hget
        simp only [List.drop_succ_cons]
        exact ih _ hlt _ rfl i' x dx y r hget hsub hr

/-- Positions of two elements, in order, survive filtering: if x occurs before
y in l and both satisfy p, then some occurrence of x precedes some occurrence
of y in l.filter p. -/
theorem filter_get_lt {α : Type} (p : α → Bool) (l : List α) (i j : Nat) (x y : α)
    (hij : i < j) (hx : l.get? i = some x) (hy : l.get? j = some y)
    (hpx : p x = true) (hpy : p y = true) :
    ∃ i' j', i' < j' ∧ (l.filter p).get? i' = some x ∧
      (l.filter p).get? j' = some y := by
  have hi : i < l.length := by
    by_contra hcon
    rw [List.get?_eq_none.mpr (by omega)] at hx
    cases hx
  have hj : j < l.length := by
    by_contra hcon
    rw [List.get?_eq_none.mpr (by omega)] at hy
    cases hy
  have hdropi : l.drop i = x :: l.drop (i + 1) := by
    rw [List.drop_eq_getElem_cons hi]
    congr 1
    have := List.get?_eq_getElem? l i
    rw [hx] at this
    have h2 := (List.getElem?_eq_some.mp this.symm)
    obtain ⟨hh, hv⟩ := h2
    exact hv
  have hdropj : l.drop j = y :: l.drop (j + 1) := by
    rw [List.drop_eq_getElem_cons hj]
    congr 1
    have := List.get?_eq_getElem? l j
    rw [hy] at this
    obtain ⟨hh, hv⟩ := List.getElem?_eq_some.mp this.symm
    exact hv
  have hsplit2 : l.drop (i + 1) =
      (l.drop (i + 1)).take (j - (i + 1)) ++ y :: l.drop (j + 1) := by
    have : l.drop j = (l.drop (i + 1)).drop (j - (i + 1)) := by
      rw [List.drop_drop]
      congr 1
      omega
    conv_lhs => rw [← List.take_append_drop (j - (i + 1)) (l.drop (i + 1))]
    rw [← this, hdropj]
  have hdropi2 : l.drop i = x ::
      ((l.drop (i + 1)).take (j - (i + 1)) ++ y :: l.drop (j + 1)) :=
    hdropi.trans (congrArg (fun z => x :: z) hsplit2)
  have hdecomp : l = l.take i ++ x ::
      ((l.drop (i + 1)).take (j - (i + 1)) ++ y :: l.drop (j + 1)) := by
    conv_lhs => rw [← List.take_append_drop i l]
    rw [hdropi2]
  set A := (l.take i).filter p with hA
  set M := ((l.drop (i + 1)).take (j - (i + 1))).filter p with hM
  set R := (l.drop (j + 1)).filter p with hR
  have hfilter : l.filter p = A ++ x :: (M ++ y :: R) := by
    conv_lhs => rw [hdecomp]
    rw [List.filter_append, List.filter_cons, if_pos hpx, List.filter_append,
      List.filter_cons, if_pos hpy]
  refine ⟨A.length, A.length + 1 + M.length, by omega, ?_, ?_⟩
  · rw [hfilter]
    rw [List.get?_append_right (by omega)]
    simp
  · rw [hfilter]
    rw [List.get?_append_right (by omega)]
    have : A.length + 1 + M.length - A.length = M.length + 1 := by omega
    rw [this]
    rw [List.get?_cons_succ]
    rw [List.get?_append_right (by omega)]
    simp

/- ===== Claim C7: iterator traversal order (corrected) ===== -/

/-- The token tree of the repository's own iter_label test
(src/basic.rs, ebnf_tests::iter_label). -/
def c7Tree : Token :=
  .mk ⟨0, 0⟩ (some "digit") ["label-1"] [] [
    .mk ⟨0, 1⟩ none ["label-2"] [] [
      .mk ⟨0, 3⟩ none ["label-2", "label-3"] [] []],
    .mk ⟨0, 2⟩ none ["label-3"] [] []]

/-- C7 counterexample: on the repository's own test tree, iter_label visits
the matching tokens for "label-3" in breadth-first order (spans ending 2 then
3 — exactly what the repository's test asserts), while the claimed pre-order
(depth-first, self first) traversal would yield them ending 3 then 2; the
iteration is therefore not pre-order. -/
theorem C7_counterexample :
    (Token.iter_label c7Tree "label-3").map (fun t => t.span.stop) = [2, 3] ∧
    ((c7Tree.preOrder).filter
        (fun tok => tok.tags.any (fun tag => tag = "label-3"))).map
      (fun t => t.span.stop) = [3, 2] ∧
    Token.iter_label c7Tree "label-3" ≠
      (c7Tree.preOrder).filter
        (fun tok => tok.tags.any (fun tag => tag = "label-3")) := by
  refine ⟨?_, ?_, ?_⟩
  · simp [Token.iter_label, collectBy, c7Tree, Token.children, Token.tags,
      Token.span]
  · simp [Token.preOrder, preOrderList, c7Tree, Token.children, Token.tags,
      Token.span, List.filter]
  · intro heq
    have h1 : (Token.iter_label c7Tree "label-3").map (fun t => t.span.stop) = [2, 3] := by
      simp [Token.iter_label, collectBy, c7Tree, Token.children, Token.tags,
        Token.span]
    have h2 : ((c7Tree.preOrder).filter
        (fun tok => tok.tags.any (fun tag => tag = "label-3"))).map
        (fun t => t.span.stop) = [3, 2] := by
      simp [Token.preOrder, preOrderList, c7Tree, Token.children, Token.tags,
        Token.span, List.filter]
    rw [heq, h2] at h1
    exact absurd h1 (by decide)

/-- C7 as amended: iter_label lazily yields exactly the tokens whose tags
contain the label and iter_grams exactly those with the given gram, each in
the breadth-first (level) order of the queue loop — not pre-order; the
traversal still descends into matching and non-matching subtrees alike (the
BFS list is a permutation of the pre-order list, so exactly the matching
tokens of the whole tree are produced), and every matching token is yielded
before each of its matching proper descendants. -/
theorem C7_iterators_bfs (t : Token) (label gram : String) :
    Token.iter_label t label =
      (bfsList [t]).filter (fun tok => tok.tags.any (fun tag => tag = label)) ∧
    Token.iter_grams t gram =
      (bfsList [t]).filter (fun tok => tok.gram = some gram) ∧
    (bfsList [t]).Perm t.preOrder ∧
    (∀ (p : Token → Bool) (dx : Nat) (x : Token) (r : Nat) (y : Token),
      SubAt dx x t → SubAt r y x → 0 < r → p x = true → p y = true →
      ∃ i j, i < j ∧ ((bfsList [t]).filter p).get? i = some x ∧
        ((bfsList [t]).filter p).get? j = some y) := by
  refine ⟨collectBy_eq_filter _ [t], collectBy_eq_filter _ [t], ?_, ?_⟩
  · have := bfsList_perm_preOrderList [t]
    simpa [preOrderList] using this
  · intro p dx x r y hdx hr hrpos hpx hpy
    have hmapfst : bfsList [t] = (bfsPairs [(t, 0)]).map Prod.fst := by
      have := bfsList_eq_bfsPairs_map [(t, 0)]
      simpa using this
    have hxmem : (x, dx) ∈ bfsPairs [(t, 0)] := by
      have := bfsPairs_mem_sub [(t, 0)] t 0 x dx (List.mem_cons_self _ _) hdx
      simpa using this
    obtain ⟨i0, hi0⟩ := List.mem_iff_get?.mp hxmem
    have hymem : (y, dx + r) ∈ (bfsPairs [(t, 0)]).drop (i0 + 1) :=
      bfsPairs_descendant_later [(t, 0)] i0 x dx y r hi0 hr hrpos
    obtain ⟨k, hk⟩ := List.mem_iff_get?.mp hymem
    rw [List.get?_drop] at hk
    have hxl : (bfsList [t]).get? i0 = some x := by
      rw [hmapfst, List.get?_map, hi0]
      rfl
    have hyl : (bfsList [t]).get? (i0 + 1 + k) = some y := by
      rw [hmapfst, List.get?_map, hk]
      rfl
    exact filter_get_lt p (bfsList [t]) i0 (i0 + 1 + k) x y (by omega) hxl hyl hpx hpy

/-- Witness for C7 on the test tree with label "label-2": the root's first
child matches and so does that child's own child; the iterator yields the
ancestor first. -/
theorem C7_iterators_bfs_witness :
    ∃ i j, i < j ∧
      ((bfsList [c7Tree]).filter
        (fun tok => tok.tags.any (fun tag => tag = "label-2"))).get? i =
        some (.mk ⟨0, 1⟩ none ["label-2"] []
          [.mk ⟨0, 3⟩ none ["label-2", "label-3"] [] []]) ∧
      ((bfsList [c7Tree]).filter
        (fun tok => tok.tags.any (fun tag => tag = "label-2"))).get? j =
        some (.mk ⟨0, 3⟩ none ["label-2", "label-3"] [] []) :=
  (C7_iterators_bfs c7Tree "label-2" "digit").2.2.2
    (fun tok => tok.tags.any (fun tag => tag = "label-2")) 1
    (.mk ⟨0, 1⟩ none ["label-2"] [] [.mk ⟨0, 3⟩ none ["label-2", "label-3"] [] []])
    1 (.mk ⟨0, 3⟩ none ["label-2", "label-3"] [] [])
    (SubAt.child (by simp [c7Tree, Token.children]) (SubAt.refl _))
    (SubAt.child (by simp [Token.children]) (SubAt.refl _))
    (by decide) (by simp [Token.tags]) (by simp [Token.tags])

/-- The self-describing value tree a serde serializer receives, sufficient for
the formats (YAML) the repository uses: strings, naturals, maps and lists. -/
inductive SerValue : Type where
  | vstr (s : String)
  | vnat (n : Nat)
  | vmap (entries : List (String × SerValue))
  | vlist (items : List SerValue)
deriving Repr

/-- serde_span_serialization::serialize from src/basic.rs: a {min, max} map
with min omitted when 0 and max omitted when usize::MAX. -/
def serializeRange (range : Nat × Nat) : SerValue :=
  .vmap ((if range.1 = 0 then [] else [("min", .vnat range.1)]) ++
         (if range.2 = usizeMax then [] else [("max", .vnat range.2)]))

/-- serde_span_serialization::deserialize from src/basic.rs: read min
(default 0) and max (default usize::MAX) from a map. -/
def deserializeRange : SerValue → Except String (Nat × Nat)
  | .vmap entries =>
    match mapLookup entries "min", mapLookup entries "max" with
    | none, none => .ok (0, usizeMax)
    | some (.vnat mn), none => .ok (mn, usizeMax)
    | none, some (.vnat mx) => .ok (0, mx)
    | some (.vnat mn), some (.vnat mx) => .ok (mn, mx)
    | _, _ => .error "invalid range field"
  | _ => .error "expected a map for SerRange"

-- impl Serialize for Node from src/basic/node/serialization.rs: a map with a
-- single key naming the variant; Rep over 0..=1 is serialized under "opt";
-- the helper structs Rep {node, range}, Tagged {node, tag}, Meta {node, data}
-- become maps in field order.
mutual
def serializeNode {T : Type} (serT : T → SerValue) : Node T → SerValue
  | .Seq nodes => .vmap [("seq", .vlist (serializeList serT nodes))]
  | .Alt nodes => .vmap [("alt", .vlist (serializeList serT nodes))]
  | .Rep node range =>
      if range = (0, 1) then .vmap [("opt", serializeNode serT node)]
      else .vmap [("rep", .vmap [("node", serializeNode serT node),
                                 ("range", serializeRange range)])]
  | .Terminal v => .vmap [("term", serT v)]
  | .NonTerm name => .vmap [("non_term", .vstr name)]
  | .Tagged node tag =>
      .vmap [("tagged", .vmap [("node", serializeNode serT node),
                               ("tag", .vstr tag)])]
  | .Meta node meta =>
      .vmap [("meta", .vmap [("node", serializeNode serT node),
                             ("data", .vmap (meta.map fun kv => (kv.1, .vstr kv.2)))])]

def serializeList {T : Type} (serT : T → SerValue) : List (Node T) → List SerValue
  | [] => []
  | n :: ns => serializeNode serT n :: serializeList serT ns
end

theorem mapLookup_mem {α : Type} :
    ∀ (m : List (String × α)) (k : String) (v : α),
      mapLookup m k = some v → ∃ k', (k', v) ∈ m := by
  intro m
  induction m with
  | nil => intro k v h; simp [mapLookup] at h
  | cons p rest ih =>
    intro k v h
    obtain ⟨k', v'⟩ := p
    simp only [mapLookup] at h
    by_cases hk : k' = k
    · rw [if_pos hk] at h
      injection h with h
      exact ⟨k', by rw [← h]; exact List.mem_cons_self _ _⟩
    · rw [if_neg hk] at h
      obtain ⟨k'', hk''⟩ := ih k v h
      exact ⟨k'', List.mem_cons_of_mem _ hk''⟩

theorem sizeOf_mapLookup {m : List (String × SerValue)} {k : String} {v : SerValue}
    (h : mapLookup m k = some v) : sizeOf v < sizeOf m := by
  obtain ⟨k', hmem⟩ := mapLookup_mem m k v h
  have h1 : sizeOf (k', v) < sizeOf m := List.sizeOf_lt_of_mem hmem
  have h2 : sizeOf v < sizeOf (k', v) := by
    simp only [Prod.mk.sizeOf_spec]
    omega
  omega

theorem sizeOf_head_pair {l : List (String × SerValue)} {k : String} {v : SerValue}
    (h : l.head? = some (k, v)) : sizeOf v < sizeOf l := by
  cases l with
  | nil => simp at h
  | cons p rest =>
    have hp : p = (k, v) := by simpa using h
    subst hp
    simp only [List.cons.sizeOf_spec, Prod.mk.sizeOf_spec]
    omega

-- impl Deserialize for Node from src/basic/node/serialization.rs: expect a
-- map, read its first key, and dispatch on it.  Note the visitor handles
-- "seq", "alt", "opt", "rep", "term", "non_term" and "tagged" but has no arm
-- for "meta", which therefore falls to the unknown-field error (whose list of
-- expected fields names "re" and omits "opt" and "meta", as in the source).
mutual
def deserializeNode {T : Type} (deT : SerValue → Except String T) :
    SerValue → Except String (Node T)
  | .vmap entries =>
    match h : entries.head? with
    | none => .error "expected a single key in the map"
    | some (key, value) =>
      if key = "seq" then
        match hv : value with
        | .vlist items => (deserializeList deT items).map Node.Seq
        | _ => .error "invalid type for seq"
      else if key = "alt" then
        match hv : value with
        | .vlist items => (deserializeList deT items).map Node.Alt
        | _ => .error "invalid type for alt"
      else if key = "opt" then
        (deserializeNode deT value).map (fun n => Node.Rep n (0, 1))
      else if key = "rep" then
        match hv : value with
        | .vmap fields =>
          match h1 : mapLookup fields "node", mapLookup fields "range" with
          | some nodeV, some rangeV =>
            match deserializeNode deT nodeV, deserializeRange rangeV with
            | .ok n, .ok r => .ok (Node.Rep n r)
            | .error e, _ => .error e
            | _, .error e => .error e
          | _, _ => .error "missing field for Rep"
        | _ => .error "invalid type for rep"
      else if key = "term" then
        (deT value).map Node.Terminal
      else if key = "non_term" then
        match value with
        | .vstr s => .ok (Node.NonTerm s)
        | _ => .error "invalid type for non_term"
      else if key = "tagged" then
        match hv : value with
        | .vmap fields =>
          match h2 : mapLookup fields "node", mapLookup fields "tag" with
          | some nodeV, some (.vstr tag) =>
            (deserializeNode deT nodeV).map (fun n => Node.Tagged n tag)
          | _, _ => .error "missing field for Tagged"
        | _ => .error "invalid type for tagged"
      else
        .error ("unknown field `" ++ key ++
          "`, expected one of `seq`, `alt`, `rep`, `term`, `re`, `non_term`, `tagged`")
  | _ => .error "expected a map with a single key representing a Node variant"
termination_by v => sizeOf v
decreasing_by
  all_goals try have hl1 := sizeOf_mapLookup h1
  all_goals try have hl2 := sizeOf_mapLookup h2
  all_goals have hd := sizeOf_head_pair h
  all_goals try simp only [SerValue.vmap.sizeOf_spec, SerValue.vlist.sizeOf_spec,
    List.cons.sizeOf_spec, Prod.mk.sizeOf_spec] at *
  all_goals omega

def deserializeList {T : Type} (deT : SerValue → Except String T) :
    List SerValue → Except String (List (Node T))
  | [] => .ok []
  | v :: vs =>
    match deserializeNode deT v, deserializeList deT vs with
    | .ok n, .ok ns => .ok (n :: ns)
    | .error e, _ => .error e
    | _, .error e => .error e
termination_by l => sizeOf l
decreasing_by
  all_goals (simp only [List.cons.sizeOf_spec]; omega)
end

-- Termination of the deserializer: every recursive call descends into a value
-- strictly inside the current one (through the first map entry, a looked-up
-- field, or a list element).

/-- serde's conversion of Text to a plain string from src/basic/text.rs
(impl Into<String> for Text). -/
def Text.intoString : Text → String
  | .str s => s
  | .regex s => "/" ++ s ++ "/"

/-- serde's conversion of a plain string to Text from src/basic/text.rs
(impl From<String> for Text): slash-delimited means regex. -/
def Text.fromString (value : String) : Text :=
  if value.startsWith "/" ∧ value.endsWith "/" ∧ 2 ≤ value.length then
    .regex ((value.drop 1).dropRight 1)
  else .str value

/-- Text's serde Serialize (via Into<String>). -/
def Text.serialize (t : Text) : SerValue := .vstr t.intoString

/-- Text's serde Deserialize (via From<String>). -/
def Text.deserialize : SerValue → Except String Text
  | .vstr s => .ok (Text.fromString s)
  | _ => .error "expected a string for Text"

/- ===== Association-list lemmas (BTreeMap model) ===== -/

theorem mapLookup_eq_none_of_not_mem {α : Type} :
    ∀ (m : List (String × α)) (k : String),
      k ∉ m.map Prod.fst → mapLookup m k = none := by
  intro m
  induction m with
  | nil => intro k _; rfl
  | cons p rest ih =>
    intro k hk
    obtain ⟨k', v'⟩ := p
    simp only [List.map_cons, List.mem_cons] at hk
    push_neg at hk
    simp only [mapLookup]
    rw [if_neg (fun he => hk.1 he.symm)]
    exact ih k hk.2

theorem mapLookup_mapRemove_self {α : Type} :
    ∀ (m : List (String × α)) (k : String),
      (m.map Prod.fst).Nodup → mapLookup (mapRemove m k) k = none := by
  intro m
  induction m with
  | nil => intro k _; rfl
  | cons p rest ih =>
    intro k hnd
    obtain ⟨k', v'⟩ := p
    simp only [List.map_cons, List.nodup_cons] at hnd
    simp only [mapRemove]
    by_cases hk : k' = k
    · rw [if_pos hk]
      subst hk
      exact mapLookup_eq_none_of_not_mem rest k' hnd.1
    · rw [if_neg hk]
      simp only [mapLookup]
      rw [if_neg hk]
      exact ih k hnd.2

/- ===== Claim C10: add_element is not atomic on conflict ===== -/

/-- C10: when add_element hits a conflict (a different rule already exists
under the name — the code's test prev != element, here Node.beq = false, which
by Node.ne_of_beq_false really is inequality), it returns an error, yet the
grammar has been mutated: the BTreeMap::remove ran before the check and the
insert never ran, so afterwards has(name) is false and the old rule is lost.
The Nodup hypothesis is the BTreeMap invariant that keys are unique. -/
theorem C10_add_element_not_atomic {T : Type} (eqT : T → T → Bool)
    (g : Grammar T) (name : String) (prev element : Node T)
    (hnd : (g.rules.map Prod.fst).Nodup)
    (hprev : mapLookup g.rules name = some prev)
    (hne : Node.beq eqT prev element = false) :
    (∃ e, Grammar.add_element eqT g name element =
      (.error e, ⟨g.start, mapRemove g.rules name⟩)) ∧
    (Grammar.add_element eqT g name element).2.has name = false ∧
    mapLookup (Grammar.add_element eqT g name element).2.rules name = none := by
  have hrun : Grammar.add_element eqT g name element =
      (.error ("Element " ++ name ++ " already exists and is different"),
       ⟨g.start, mapRemove g.rules name⟩) := by
    unfold Grammar.add_element
    rw [hprev]
    simp only [hne]
    rfl
  refine ⟨⟨_, hrun⟩, ?_, ?_⟩
  · rw [hrun]
    simp only [Grammar.has, mapContains]
    rw [mapLookup_mapRemove_self g.rules name hnd]
    rfl
  · rw [hrun]
    exact mapLookup_mapRemove_self g.rules name hnd

/-- Witness for C10 at a concrete grammar: rule "r" maps to terminal "a", the
conflicting node is terminal "b". -/
theorem C10_add_element_not_atomic_witness :
    (∃ e, Grammar.add_element (fun a b => decide (a = b))
        (⟨none, [("r", Node.Terminal (Text.str "a"))]⟩ : Grammar Text) "r"
        (Node.Terminal (Text.str "b")) =
      (.error e, ⟨none, mapRemove [("r", Node.Terminal (Text.str "a"))] "r"⟩)) ∧
    (Grammar.add_element (fun a b => decide (a = b))
        (⟨none, [("r", Node.Terminal (Text.str "a"))]⟩ : Grammar Text) "r"
        (Node.Terminal (Text.str "b"))).2.has "r" = false ∧
    mapLookup (Grammar.add_element (fun a b => decide (a = b))
        (⟨none, [("r", Node.Terminal (Text.str "a"))]⟩ : Grammar Text) "r"
        (Node.Terminal (Text.str "b"))).2.rules "r" = none :=
  C10_add_element_not_atomic (fun a b => decide (a = b))
    ⟨none, [("r", Node.Terminal (Text.str "a"))]⟩ "r"
    (Node.Terminal (Text.str "a")) (Node.Terminal (Text.str "b"))
    (by simp) (by rfl) (by rfl)

/- ===== Claim C9: serialization round-trip (code bug for Meta) ===== -/

/-- A concrete Meta node over Text used as the failing input for claim C9. -/
def metaExampleNode : Node Text :=
  .Meta (.Terminal (.str "a")) [("k", "v")]

/-- C9 fails on the code: serializing a Meta node produces a map with the
single key "meta" (as the claim's key set requires), but deserializing that
very value returns the visitor's unknown-field error, because the Deserialize
impl has no arm for "meta" — the round-trip does not hold for the Meta
variant. -/
theorem C9_meta_roundtrip_fails :
    serializeNode Text.serialize metaExampleNode =
      .vmap [("meta", .vmap [("node", .vmap [("term", .vstr "a")]),
                             ("data", .vmap [("k", .vstr "v")])])] ∧
    deserializeNode Text.deserialize (serializeNode Text.serialize metaExampleNode) =
      .error "unknown field `meta`, expected one of `seq`, `alt`, `rep`, `term`, `re`, `non_term`, `tagged`" := by
  refine ⟨rfl, ?_⟩
  simp only [metaExampleNode, serializeNode, serializeList, Text.serialize, Text.intoString]
  rw [deserializeNode]
  simp

/- ===== Claim C8: rename (corrected) ===== -/

-- Whether a node contains a NonTerm reference to the given name (the
-- references rename_reference updates).
mutual
def Node.referencesName {T : Type} (name : String) : Node T → Bool
  | .Seq elements => referencesList name elements
  | .Alt branches => referencesList name branches
  | .Rep node _ => node.referencesName name
  | .Terminal _ => false
  | .NonTerm n => decide (n = name)
  | .Tagged node _ => node.referencesName name
  | .Meta node _ => node.referencesName name

def referencesList {T : Type} (name : String) : List (Node T) → Bool
  | [] => false
  | n :: ns => n.referencesName name || referencesList name ns
end

-- rename_reference is the identity on nodes that do not reference the old
-- name.
mutual
theorem rename_noop {T : Type} (old_name new_name : String) :
    ∀ (n : Node T), n.referencesName old_name = false →
      n.rename_reference old_name new_name = n
  | .Seq elements => by
    intro h
    simp only [Node.referencesName] at h
    simp only [Node.rename_reference, renameList_noop old_name new_name elements h]
  | .Alt branches => by
    intro h
    simp only [Node.referencesName] at h
    simp only [Node.rename_reference, renameList_noop old_name new_name branches h]
  | .Rep node range => by
    intro h
    simp only [Node.referencesName] at h
    simp only [Node.rename_reference, rename_noop old_name new_name node h]
  | .Terminal t => by intro _; rfl
  | .NonTerm n => by
    intro h
    simp only [Node.referencesName, decide_eq_false_iff_not] at h
    simp only [Node.rename_reference, if_neg h]
  | .Tagged node tag => by
    intro h
    simp only [Node.referencesName] at h
    simp only [Node.rename_reference, rename_noop old_name new_name node h]
  | .Meta node meta => by
    intro h
    simp only [Node.referencesName] at h
    simp only [Node.rename_reference, rename_noop old_name new_name node h]

theorem renameList_noop {T : Type} (old_name new_name : String) :
    ∀ (l : List (Node T)), referencesList old_name l = false →
      renameList old_name new_name l = l
  | [] => by intro _; rfl
  | n :: ns => by
    intro h
    simp only [referencesList, Bool.or_eq_false_iff] at h
    simp only [renameList, rename_noop old_name new_name n h.1,
      renameList_noop old_name new_name ns h.2]
end

theorem referencesList_mem {T : Type} {name : String} {l : List (Node T)}
    (h : referencesList name l = false) :
    ∀ e ∈ l, e.referencesName name = false := by
  induction l with
  | nil => intro e he; simp at he
  | cons n ns ih =>
    simp only [referencesList, Bool.or_eq_false_iff] at h
    intro e he
    rcases List.mem_cons.mp he with he | he
    · subst he; exact h.1
    · exact ih h.2 e he

theorem mapLookup_mapInsert_self {α : Type} :
    ∀ (m : List (String × α)) (k : String) (v : α),
      mapLookup (mapInsert m k v) k = some v := by
  intro m
  induction m with
  | nil => intro k v; simp [mapInsert, mapLookup]
  | cons p rest ih =>
    intro k v
    obtain ⟨k', v'⟩ := p
    simp only [mapInsert]
    by_cases h1 : k = k'
    · rw [if_pos h1]
      simp [mapLookup]
    · rw [if_neg h1]
      by_cases h2 : k < k'
      · rw [if_pos h2]
        simp [mapLookup]
      · rw [if_neg h2]
        simp only [mapLookup]
        rw [if_neg (fun he => h1 he.symm)]
        exact ih k v

theorem mapLookup_mapInsert_ne {α : Type} :
    ∀ (m : List (String × α)) (k n : String) (v : α), n ≠ k →
      mapLookup (mapInsert m k v) n = mapLookup m n := by
  intro m
  induction m with
  | nil =>
    intro k n v hn
    simp only [mapInsert, mapLookup]
    rw [if_neg (fun he => hn he.symm)]
  | cons p rest ih =>
    intro k n v hn
    obtain ⟨k', v'⟩ := p
    simp only [mapInsert]
    by_cases h1 : k = k'
    · rw [if_pos h1]
      simp only [mapLookup]
      rw [if_neg (fun he => hn he.symm), if_neg (fun he => hn (h1.trans he).symm)]
    · rw [if_neg h1]
      by_cases h2 : k < k'
      · rw [if_pos h2]
        simp only [mapLookup]
        rw [if_neg (fun he => hn he.symm)]
      · rw [if_neg h2]
        simp only [mapLookup]
        by_cases h3 : k' = n
        · rw [if_pos h3, if_pos h3]
        · rw [if_neg h3, if_neg h3]
          exact ih k n v hn

theorem mapLookup_mapRemove_ne {α : Type} :
    ∀ (m : List (String × α)) (k n : String), n ≠ k →
      mapLookup (mapRemove m k) n = mapLookup m n := by
  intro m
  induction m with
  | nil => intro k n _; rfl
  | cons p rest ih =>
    intro k n hn
    obtain ⟨k', v'⟩ := p
    simp only [mapRemove]
    by_cases h1 : k' = k
    · rw [if_pos h1]
      simp only [mapLookup]
      rw [if_neg (fun he => hn (he.symm.trans h1))]
    · rw [if_neg h1]
      simp only [mapLookup]
      by_cases h2 : k' = n
      · rw [if_pos h2, if_pos h2]
      · rw [if_neg h2, if_neg h2]
        exact ih k n hn

/-- A node is clean of the two names involved in a rename. -/
def NodeOk {T : Type} (b1 b2 : String) (n : Node T) : Prop :=
  n.referencesName b1 = false ∧ n.referencesName b2 = false

theorem NodeOk_seq {T : Type} {b1 b2 : String} {l : List (Node T)}
    (h : NodeOk b1 b2 (.Seq l)) : ∀ e ∈ l, NodeOk b1 b2 e := by
  intro e he
  exact ⟨referencesList_mem h.1 e he, referencesList_mem h.2 e he⟩

theorem NodeOk_alt {T : Type} {b1 b2 : String} {l : List (Node T)}
    (h : NodeOk b1 b2 (.Alt l)) : ∀ e ∈ l, NodeOk b1 b2 e := by
  intro e he
  exact ⟨referencesList_mem h.1 e he, referencesList_mem h.2 e he⟩

/-- The frame components that can later be fed back into ParsingNode are
clean; frames that never feed need nothing. -/
def frameOk {T : Type} (b1 b2 : String) : StackFrame T → Prop
  | .seq elements _ _ => ∀ e ∈ elements, NodeOk b1 b2 e
  | .choice _ elements _ _ => ∀ e ∈ elements, NodeOk b1 b2 e
  | .rep _ element _ _ _ => NodeOk b1 b2 element
  | .nonTerm _ _ => True
  | .tagged _ => True
  | .meta _ => True

def configOk {T : Type} (b1 b2 : String) (c : Config T) : Prop :=
  (∀ f ∈ c.stack, frameOk b1 b2 f) ∧
  (∀ n pos, c.step = .parsingNode n pos → NodeOk b1 b2 n)

theorem pollSequenceSome_feed_inv {T : Type} {elements : List (Node T)}
    {parsed : List Token} {diags : List Diagnostic} {inc : Option (Node T)}
    {f' : StackFrame T} {n : Node T} {pos : Nat}
    (h : pollSequenceSome elements parsed diags inc = .ok (.feed f' n pos)) :
    f' = .seq elements parsed diags ∧ n ∈ elements ∧
    parsed.length < elements.length ∧
    ∃ last, parsed.getLast? = some last ∧ pos = last.span.stop := by
  unfold pollSequenceSome at h
  by_cases hne : elements.length = parsed.length
  · rw [if_pos hne] at h
    cases h1 : parsed.head? <;> cases h2 : parsed.getLast? <;>
      rw [h1, h2] at h <;> simp at h
  · rw [if_neg hne] at h
    cases h1 : parsed.getLast? <;> cases h2 : elements.get? parsed.length <;>
      rw [h1, h2] at h
    · simp at h
    · simp at h
    · simp at h
    · rename_i last el
      simp only [Except.ok.injEq, StackPoll.feed.injEq] at h
      obtain ⟨hf, hn, hp⟩ := h
      obtain ⟨hlt2, _⟩ := List.get?_eq_some.mp h2
      exact ⟨hf.symm, hn ▸ List.get?_mem h2, hlt2, last, rfl, hp.symm⟩

theorem pollSequenceNone_no_feed {T : Type} {E : T → String}
    {elements : List (Node T)} {parsed : List Token} {diags : List Diagnostic}
    {f' : StackFrame T} {n : Node T} {pos : Nat}
    (h : pollSequenceNone E elements parsed diags = .ok (.feed f' n pos)) :
    False := by
  unfold pollSequenceNone at h
  by_cases hemp : parsed.isEmpty
  · rw [if_pos hemp] at h
    simp at h
  · rw [if_neg hemp] at h
    cases h1 : parsed.head? <;> cases h2 : parsed.getLast? <;>
      cases h3 : elements.get? parsed.length <;> rw [h1, h2, h3] at h <;> simp at h

theorem pollRepetitionSome_feed_inv {T : Type} {element : Node T}
    {range : Nat × Nat} {parsed : List Token} {start_pos : Nat}
    {diags : List Diagnostic} {inc : Option (Node T)}
    {f' : StackFrame T} {n : Node T} {pos : Nat}
    (h : pollRepetitionSome element range parsed start_pos diags inc =
      .ok (.feed f' n pos)) :
    f' = .rep start_pos element range parsed diags ∧ n = element ∧
    parsed.length < range.2 ∧
    ∃ last, parsed.getLast? = some last ∧ pos = last.span.stop := by
  unfold pollRepetitionSome at h
  by_cases hge : parsed.length ≥ range.2
  · rw [if_pos hge] at h
    simp at h
  · rw [if_neg hge] at h
    cases h1 : parsed.getLast? <;> rw [h1] at h
    · simp at h
    · rename_i last
      simp only [Except.ok.injEq, StackPoll.feed.injEq] at h
      obtain ⟨hf, hn, hp⟩ := h
      exact ⟨hf.symm, hn.symm, by omega, last, rfl, hp.symm⟩

theorem pollRepetitionNone_no_feed {T : Type} {E : T → String} {element : Node T}
    {range : Nat × Nat} {parsed : List Token} {start_pos : Nat}
    {diags : List Diagnostic} {f' : StackFrame T} {n : Node T} {pos : Nat}
    (h : pollRepetitionNone E element range parsed start_pos diags =
      .ok (.feed f' n pos)) : False := by
  unfold pollRepetitionNone at h
  by_cases h1 : parsed.length = 0 ∧ range.1 > 0
  · rw [if_pos h1] at h
    simp at h
  · rw [if_neg h1] at h
    by_cases h2 : parsed.length < range.1
    · rw [if_pos h2] at h
      simp at h
    · rw [if_neg h2] at h
      simp at h

theorem pollChoiceCont_feed_inv {T : Type} {start_pos : Nat}
    {elements : List (Node T)} {current : Nat} {parsed : List (Parsed T × Nat)}
    {f' : StackFrame T} {n : Node T} {pos : Nat}
    (h : pollChoiceCont start_pos elements current parsed = .ok (.feed f' n pos)) :
    f' = .choice start_pos elements current parsed ∧ n ∈ elements ∧
    current < elements.length ∧ pos = start_pos := by
  unfold pollChoiceCont at h
  by_cases hge : current ≥ elements.length
  · rw [if_pos hge] at h
    by_cases hemp : parsed.isEmpty
    · rw [if_pos hemp] at h
      simp at h
    · rw [if_neg hemp] at h
      simp at h
  · rw [if_neg hge] at h
    cases h1 : elements.get? current <;> rw [h1] at h
    · simp at h
    · rename_i el
      simp only [Except.ok.injEq, StackPoll.feed.injEq] at h
      obtain ⟨hf, hn, hp⟩ := h
      exact ⟨hf.symm, hn ▸ List.get?_mem h1, by omega, hp.symm⟩

/-- Characterization of a Feed transition: the new frame is the old frame with
its progress advanced, and the fed node comes from the frame's own elements. -/
theorem pollFrame_feed_from {T : Type} (TN : TerminalNode T)
    (frame : StackFrame T) (next : Option (Parsed T)) (cache : Cache T)
    (f' : StackFrame T) (n : Node T) (pos : Nat) (cache' : Cache T)
    (h : pollFrame TN frame next cache = .ok (.feed f' n pos, cache')) :
    (∃ elements parsed diags parsed' diags',
      frame = .seq elements parsed diags ∧ f' = .seq elements parsed' diags' ∧
      n ∈ elements ∧ parsed'.length = parsed.length + 1 ∧
      parsed'.length < elements.length) ∨
    (∃ sp elements cur pc pc',
      frame = .choice sp elements cur pc ∧ f' = .choice sp elements (cur + 1) pc' ∧
      n ∈ elements ∧ cur + 1 < elements.length) ∨
    (∃ sp element range parsed diags parsed' diags',
      frame = .rep sp element range parsed diags ∧
      f' = .rep sp element range parsed' diags' ∧
      n = element ∧ parsed'.length = parsed.length + 1 ∧
      parsed'.length < range.2) := by
  cases frame with
  | seq elements parsed diags =>
    left
    simp only [pollFrame] at h
    cases hps : pollSequence TN.to_ebnf next elements parsed diags with
    | error e => rw [hps] at h; simp [Except.map] at h
    | ok r =>
      rw [hps] at h
      simp only [Except.map, Except.ok.injEq, Prod.mk.injEq] at h
      obtain ⟨hr, hcc⟩ := h
      subst hr
      unfold pollSequence at hps
      by_cases h0 : elements.length = 0
      · rw [if_pos h0] at hps
        cases hps
      · rw [if_neg h0] at hps
        cases next with
        | none => exact absurd hps.symm (fun hh => pollSequenceNone_no_feed hh.symm)
        | some p =>
          obtain ⟨hf, hn, hlen, _⟩ := pollSequenceSome_feed_inv hps
          exact ⟨elements, parsed, diags, parsed ++ [p.token], diags ++ p.diagnostics,
            rfl, hf, hn, by simp, by simpa using hlen⟩
  | choice sp elements cur pc =>
    right; left
    simp only [pollFrame] at h
    cases hps : pollChoice next sp elements cur pc with
    | error e => rw [hps] at h; simp [Except.map] at h
    | ok r =>
      rw [hps] at h
      simp only [Except.map, Except.ok.injEq, Prod.mk.injEq] at h
      obtain ⟨hr, hcc⟩ := h
      subst hr
      unfold pollChoice at hps
      by_cases h0 : elements.length = 0
      · rw [if_pos h0] at hps
        cases hps
      · rw [if_neg h0] at hps
        obtain ⟨hf, hn, hlt, _⟩ := pollChoiceCont_feed_inv hps
        exact ⟨sp, elements, cur, pc, _, rfl, hf, hn, hlt⟩
  | rep sp element range parsed diags =>
    right; right
    simp only [pollFrame] at h
    cases hps : pollRepetition TN.to_ebnf next element range parsed sp diags with
    | error e => rw [hps] at h; simp [Except.map] at h
    | ok r =>
      rw [hps] at h
      simp only [Except.map, Except.ok.injEq, Prod.mk.injEq] at h
      obtain ⟨hr, hcc⟩ := h
      subst hr
      unfold pollRepetition at hps
      cases hz : (match next with
        | some n => if n.token.span.stop ≤ n.token.span.start then none else some n
        | none => none) with
      | none =>
        rw [hz] at hps
        exact absurd hps.symm (fun hh => pollRepetitionNone_no_feed hh.symm)
      | some p =>
        rw [hz] at hps
        obtain ⟨hf, hn, hlt, _⟩ := pollRepetitionSome_feed_inv hps
        exact ⟨sp, element, range, parsed, diags, parsed ++ [p.token],
          diags ++ p.diagnostics, rfl, hf, hn, by simp, by simpa using hlt⟩
  | nonTerm sp name =>
    simp only [pollFrame, pollNonTerminal] at h
    cases h
  | tagged tag =>
    simp only [pollFrame, pollTagged] at h
    cases next with
    | some p => simp at h
    | none => simp at h
  | meta m =>
    simp only [pollFrame, pollMeta] at h
    cases next with
    | some p => simp at h
    | none => simp at h

/-- Characterization of a Push action: the saved frame is the fresh frame of
the node's own variant, and the descended-into node is a child of the node
(or, for NonTerm, the rule body from the grammar). -/
theorem nodeAction_push_from {T : Type} (TN : TerminalNode T)
    (rules : List (String × Node T)) (src : List Char) (node : Node T)
    (pos : Nat) (cache : Cache T) (save : StackFrame T) (next : Node T)
    (npos : Nat)
    (h : nodeAction TN rules src node pos cache = .ok (.push save next npos)) :
    (∃ seq, node = .Seq seq ∧ save = .seq seq [] [] ∧ next ∈ seq) ∨
    (∃ seq, node = .Alt seq ∧ save = .choice pos seq 0 [] ∧ next ∈ seq) ∨
    (∃ inner range, node = .Rep inner range ∧
      save = .rep pos inner range [] [] ∧ next = inner) ∨
    (∃ name, node = .NonTerm name ∧ save = .nonTerm pos name ∧
      cacheLookup cache (name, pos) = none ∧ mapLookup rules name = some next) ∨
    (∃ inner tag, node = .Tagged inner tag ∧ save = .tagged tag ∧ next = inner) ∨
    (∃ inner m, node = .Meta inner m ∧ save = .meta m ∧ next = inner) := by
  cases node with
  | Seq seq =>
    left
    simp only [nodeAction] at h
    cases hh : seq.head? with
    | none => rw [hh] at h; cases h
    | some first =>
      rw [hh] at h
      simp only [Except.ok.injEq, Action.push.injEq] at h
      obtain ⟨hs, hn, _⟩ := h
      exact ⟨seq, rfl, hs.symm, hn ▸ List.mem_of_mem_head? hh⟩
  | Alt seq =>
    right; left
    simp only [nodeAction] at h
    cases hh : seq.head? with
    | none => rw [hh] at h; cases h
    | some first =>
      rw [hh] at h
      simp only [Except.ok.injEq, Action.push.injEq] at h
      obtain ⟨hs, hn, _⟩ := h
      exact ⟨seq, rfl, hs.symm, hn ▸ List.mem_of_mem_head? hh⟩
  | Rep inner range =>
    right; right; left
    simp only [nodeAction] at h
    simp only [Except.ok.injEq, Action.push.injEq] at h
    obtain ⟨hs, hn, _⟩ := h
    exact ⟨inner, range, rfl, hs.symm, hn.symm⟩
  | Terminal t =>
    simp only [nodeAction] at h
    cases hm : TN.parses t src pos with
    | error e => rw [hm] at h; cases h
    | ok r =>
      rw [hm] at h
      cases r with
      | some e => simp at h
      | none => simp at h
  | NonTerm name =>
    right; right; right; left
    simp only [nodeAction] at h
    cases hc : cacheLookup cache (name, pos) with
    | some cached => rw [hc] at h; simp at h
    | none =>
      rw [hc] at h
      cases hg : mapLookup rules name with
      | none => rw [hg] at h; cases h
      | some body =>
        rw [hg] at h
        simp only [Except.ok.injEq, Action.push.injEq] at h
        obtain ⟨hs, hn, _⟩ := h
        exact ⟨name, rfl, hs.symm, hc, hn ▸ hg⟩
  | Tagged inner tag =>
    right; right; right; right; left
    simp only [nodeAction] at h
    simp only [Except.ok.injEq, Action.push.injEq] at h
    obtain ⟨hs, hn, _⟩ := h
    exact ⟨inner, tag, rfl, hs.symm, hn.symm⟩
  | Meta inner m =>
    right; right; right; right; right
    simp only [nodeAction] at h
    simp only [Except.ok.injEq, Action.push.injEq] at h
    obtain ⟨hs, hn, _⟩ := h
    exact ⟨inner, m, rfl, hs.symm, hn.symm⟩

theorem mapInsert_mem {α : Type} :
    ∀ (m : List (String × α)) (k : String) (v : α) (x : String × α),
      x ∈ mapInsert m k v → x = (k, v) ∨ x ∈ m := by
  intro m
  induction m with
  | nil =>
    intro k v x hx
    simp [mapInsert] at hx
    exact Or.inl hx
  | cons p rest ih =>
    intro k v x hx
    obtain ⟨k', v'⟩ := p
    simp only [mapInsert] at hx
    by_cases h1 : k = k'
    · rw [if_pos h1] at hx
      rcases List.mem_cons.mp hx with hx | hx
      · exact Or.inl hx
      · exact Or.inr (List.mem_cons_of_mem _ hx)
    · rw [if_neg h1] at hx
      by_cases h2 : k < k'
      · rw [if_pos h2] at hx
        rcases List.mem_cons.mp hx with hx | hx
        · exact Or.inl hx
        · exact Or.inr hx
      · rw [if_neg h2] at hx
        rcases List.mem_cons.mp hx with hx | hx
        · exact Or.inr (List.mem_cons.mpr (Or.inl hx))
        · rcases ih k v x hx with hx | hx
          · exact Or.inl hx
          · exact Or.inr (List.mem_cons_of_mem _ hx)

theorem mapRemove_mem {α : Type} :
    ∀ (m : List (String × α)) (k : String) (x : String × α),
      x ∈ mapRemove m k → x ∈ m := by
  intro m
  induction m with
  | nil => intro k x hx; simp [mapRemove] at hx
  | cons p rest ih =>
    intro k x hx
    obtain ⟨k', v'⟩ := p
    simp only [mapRemove] at hx
    by_cases h1 : k' = k
    · rw [if_pos h1] at hx
      exact List.mem_cons_of_mem _ hx
    · rw [if_neg h1] at hx
      rcases List.mem_cons.mp hx with hx | hx
      · exact List.mem_cons.mpr (Or.inl hx)
      · exact List.mem_cons_of_mem _ (ih k x hx)

/-- Node actions agree for two grammars that agree on every rule a clean node
can name. -/
theorem nodeAction_agree {T : Type} (TN : TerminalNode T)
    (rules1 rules2 : List (String × Node T)) (src : List Char) (b1 b2 : String)
    (hagree : ∀ name, name ≠ b1 → name ≠ b2 →
      mapLookup rules1 name = mapLookup rules2 name)
    (node : Node T) (pos : Nat) (cache : Cache T) (hok : NodeOk b1 b2 node) :
    nodeAction TN rules1 src node pos cache =
      nodeAction TN rules2 src node pos cache := by
  cases node
  case NonTerm name =>
    have hne1 : name ≠ b1 := by
      have := hok.1
      simp only [Node.referencesName, decide_eq_false_iff_not] at this
      exact this
    have hne2 : name ≠ b2 := by
      have := hok.2
      simp only [Node.referencesName, decide_eq_false_iff_not] at this
      exact this
    simp only [nodeAction]
    cases hcc : cacheLookup cache (name, pos) with
    | some cached => rfl
    | none => rw [hagree name hne1 hne2]
  all_goals rfl

/-- One step of the trampoline is the same under two grammars that agree on
the reachable rules, and configuration cleanliness is preserved. -/
theorem stepFn_agree {T : Type} (TN : TerminalNode T)
    (rules1 rules2 : List (String × Node T)) (src : List Char) (b1 b2 : String)
    (hagree : ∀ name, name ≠ b1 → name ≠ b2 →
      mapLookup rules1 name = mapLookup rules2 name)
    (hbodies : ∀ name body, mapLookup rules1 name = some body →
      NodeOk b1 b2 body)
    (c : Config T) (hok : configOk b1 b2 c) :
    stepFn TN rules1 src c = stepFn TN rules2 src c ∧
    (∀ c', stepFn TN rules1 src c = .next c' → configOk b1 b2 c') := by
  obtain ⟨cache0, stack0, step0⟩ := c
  obtain ⟨hsok, hnok⟩ := hok
  simp only [configOk] at hsok hnok
  constructor
  · unfold stepFn
    simp only
    by_cases hlim : stack0.length > 1000
    · rw [if_pos hlim, if_pos hlim]
    · rw [if_neg hlim, if_neg hlim]
      cases step0 with
      | parsingNode node pos =>
        have hnode : NodeOk b1 b2 node := hnok node pos rfl
        simp only [stepGo]
        rw [nodeAction_agree TN rules1 rules2 src b1 b2 hagree node pos cache0 hnode]
      | polling parsed => rfl
  · intro c' h
    unfold stepFn at h
    simp only at h
    by_cases hlim : stack0.length > 1000
    · rw [if_pos hlim] at h
      cases h
    · rw [if_neg hlim] at h
      cases step0 with
      | parsingNode node pos =>
        have hnode : NodeOk b1 b2 node := hnok node pos rfl
        simp only [stepGo] at h
        cases ha : nodeAction TN rules1 src node pos cache0 with
        | error e => rw [ha] at h; cases h
        | ok a =>
          rw [ha] at h
          cases a with
          | pop parsed =>
            cases h
            exact ⟨hsok, by intro n p hh; cases hh⟩
          | push save next npos =>
            cases h
            have hfrom := nodeAction_push_from TN rules1 src node pos cache0 save next npos ha
            have hsave_next : frameOk b1 b2 save ∧ NodeOk b1 b2 next := by
              rcases hfrom with ⟨seq, hns, hsv, hmem⟩ | ⟨seq, hns, hsv, hmem⟩ |
                ⟨inner, range, hns, hsv, hin⟩ | ⟨name, hns, hsv, _, hlook⟩ |
                ⟨inner, tag, hns, hsv, hin⟩ | ⟨inner, m, hns, hsv, hin⟩
              · subst hns; subst hsv
                exact ⟨fun e he => NodeOk_seq hnode e he, NodeOk_seq hnode next hmem⟩
              · subst hns; subst hsv
                exact ⟨fun e he => NodeOk_alt hnode e he, NodeOk_alt hnode next hmem⟩
              · subst hns; subst hsv; subst hin
                exact ⟨hnode, hnode⟩
              · subst hns; subst hsv
                exact ⟨trivial, hbodies name next hlook⟩
              · subst hns; subst hsv; subst hin
                exact ⟨trivial, hnode⟩
              · subst hns; subst hsv; subst hin
                exact ⟨trivial, hnode⟩
            refine ⟨?_, ?_⟩
            · intro f hf
              rcases List.mem_cons.mp hf with rfl | hf
              · exact hsave_next.1
              · exact hsok f hf
            · intro n p hh
              injection hh with h1 h2
              subst h1
              exact hsave_next.2
      | polling parsed =>
        cases stack0 with
        | nil => simp only [stepGo] at h; cases h
        | cons frame rest =>
          simp only [stepGo] at h
          cases hpf : pollFrame TN frame parsed cache0 with
          | error e => rw [hpf] at h; cases h
          | ok pr =>
            obtain ⟨poll, cache1⟩ := pr
            rw [hpf] at h
            cases poll with
            | finished p =>
              cases h
              refine ⟨?_, by intro n p hh; cases hh⟩
              intro f hf
              exact hsok f (List.mem_cons_of_mem _ hf)
            | feed f n pos =>
              cases h
              have hframe : frameOk b1 b2 frame := hsok frame (List.mem_cons_self _ _)
              have hfrom := pollFrame_feed_from TN frame parsed cache0 f n pos cache1 hpf
              have hf_n : frameOk b1 b2 f ∧ NodeOk b1 b2 n := by
                rcases hfrom with
                  ⟨elements, parsed0, diags0, parsed', diags', hfr, hfr', hmem, _, _⟩ |
                  ⟨sp, elements, cur, pc, pc', hfr, hfr', hmem, _⟩ |
                  ⟨sp, element, range, parsed0, diags0, parsed', diags', hfr, hfr', hn, _, _⟩
                · subst hfr; subst hfr'
                  exact ⟨fun e he => hframe e he, hframe n hmem⟩
                · subst hfr; subst hfr'
                  exact ⟨fun e he => hframe e he, hframe n hmem⟩
                · subst hfr; subst hfr'; subst hn
                  exact ⟨hframe, hframe⟩
              refine ⟨?_, ?_⟩
              · intro fr hfr
                rcases List.mem_cons.mp hfr with rfl | hfr
                · exact hf_n.1
                · exact hsok fr (List.mem_cons_of_mem _ hfr)
              · intro nn pp hh
                injection hh with h1 h2
                subst h1
                exact hf_n.2

/-- The whole run is the same under two grammars that agree on the reachable
rules, for any fuel. -/
theorem runSteps_agree {T : Type} (TN : TerminalNode T)
    (rules1 rules2 : List (String × Node T)) (src : List Char) (b1 b2 : String)
    (hagree : ∀ name, name ≠ b1 → name ≠ b2 →
      mapLookup rules1 name = mapLookup rules2 name)
    (hbodies : ∀ name body, mapLookup rules1 name = some body →
      NodeOk b1 b2 body) :
    ∀ (fuel : Nat) (c : Config T), configOk b1 b2 c →
      runSteps TN rules1 src fuel c = runSteps TN rules2 src fuel c := by
  intro fuel
  induction fuel with
  | zero => intro c _; rfl
  | succ n ih =>
    intro c hok
    obtain ⟨heq, hpres⟩ :=
      stepFn_agree TN rules1 rules2 src b1 b2 hagree hbodies c hok
    simp only [runSteps]
    rw [← heq]
    cases hs : stepFn TN rules1 src c with
    | done p => rfl
    | fatal e => rfl
    | next c' => exact ih c' (hpres c' hs)

theorem map_rename_noop {T : Type} (r r' : String) :
    ∀ (M : List (String × Node T)),
      (∀ kb ∈ M, (kb.2).referencesName r = false) →
      M.map (fun kv => (kv.1, kv.2.rename_reference r r')) = M := by
  intro M
  induction M with
  | nil => intro _; rfl
  | cons kb rest ih =>
    intro h
    simp only [List.map_cons]
    rw [rename_noop r r' kb.2 (h kb (List.mem_cons_self _ _))]
    rw [ih (fun x hx => h x (List.mem_cons_of_mem _ hx))]

/-- The grammar of the C8 counterexample: a self-referencing rule
r = "a" r?. -/
def c8Grammar : Grammar Text :=
  ⟨none, [("r", .Seq [.Terminal (.str "a"), .Rep (.NonTerm "r") (0, 1)])]⟩

/-- The result of renaming r to s in the C8 counterexample grammar. -/
def c8Renamed : Grammar Text :=
  ⟨none, [("s", .Seq [.Terminal (.str "a"), .Rep (.NonTerm "s") (0, 1)])]⟩

/-- The token tree of parsing "aa" with the original C8 grammar from r. -/
def c8TokOrig : Token :=
  .mk ⟨0, 2⟩ none [] [] [
    .mk ⟨0, 1⟩ none [] [] [],
    .mk ⟨1, 2⟩ none [] [] [
      .mk ⟨1, 2⟩ (some "r") [] [] [
        .mk ⟨1, 2⟩ none [] [] [
          .mk ⟨1, 2⟩ none [] [] [],
          .mk ⟨2, 2⟩ none [] [] []]]]]

/-- The token tree of parsing "aa" with the renamed C8 grammar from s. -/
def c8TokRen : Token :=
  .mk ⟨0, 2⟩ none [] [] [
    .mk ⟨0, 1⟩ none [] [] [],
    .mk ⟨1, 2⟩ none [] [] [
      .mk ⟨1, 2⟩ (some "s") [] [] [
        .mk ⟨1, 2⟩ none [] [] [
          .mk ⟨1, 2⟩ none [] [] [],
          .mk ⟨2, 2⟩ none [] [] []]]]]

/-- C8 counterexample: for the self-referencing grammar r = "a" r?, renaming
r to the fresh name s succeeds, and parsing "aa" succeeds under both grammars
with the same spans — but the results are not equal: the token the inner
NonTerm frame wraps carries gram = "r" in the original parse and gram = "s"
in the renamed one, so rename is not parse-equivalent as claimed. -/
theorem C8_counterexample :
    Grammar.with_renamed_element c8Grammar "r" "s" = .ok c8Renamed ∧
    Grammar.parse_non_term textTerminal c8Grammar "r" "aa".data 200 =
      .ok (some (c8TokOrig, [])) ∧
    Grammar.parse_non_term textTerminal c8Renamed "s" "aa".data 200 =
      .ok (some (c8TokRen, [])) ∧
    c8TokOrig ≠ c8TokRen := by
  refine ⟨rfl, rfl, rfl, ?_⟩
  intro h
  simp [c8TokOrig, c8TokRen] at h

/-- C8 as amended: with_renamed_element fails when r is absent or r' is
already present, and succeeds when r exists and r' is fresh, moving the rule
body to r'; parsing with the renamed grammar from r' equals parsing with the
original grammar from r for grammars none of whose rule bodies reference r or
r' (in general the token trees differ exactly in the gram labels the renamed
NonTerm frames write, and diagnostics differ in their re-rendered expected
strings — see the counterexample). -/
theorem C8_rename_equivalence {T : Type} (TN : TerminalNode T) (g : Grammar T)
    (r r' : String) :
    (g.has r = false → ∃ e, g.with_renamed_element r r' = .error e) ∧
    (g.has r = true → g.has r' = true → ∃ e, g.with_renamed_element r r' = .error e) ∧
    (∀ body, g.has r' = false → mapLookup g.rules r = some body →
      (∀ kb ∈ g.rules, NodeOk r r' kb.2) →
      ∃ g2, g.with_renamed_element r r' = .ok g2 ∧
        mapLookup g2.rules r' = some body ∧
        (∀ src fuel, Grammar.parse_non_term TN g2 r' src fuel =
          Grammar.parse_non_term TN g r src fuel)) := by
  refine ⟨?_, ?_, ?_⟩
  · intro h
    refine ⟨"Element '" ++ r ++ "' not found", ?_⟩
    unfold Grammar.with_renamed_element
    rw [if_pos (by rw [h]; rfl)]
  · intro h1 h2
    refine ⟨"Element '" ++ r' ++ "' already exists", ?_⟩
    unfold Grammar.with_renamed_element
    rw [if_neg (by rw [h1]; simp), if_pos h2]
  · intro body hfresh hlook hfree
    have hhas : g.has r = true := by
      simp [Grammar.has, mapContains, hlook]
    have hbody_clean : NodeOk r r' body := by
      obtain ⟨k', hk'⟩ := mapLookup_mem g.rules r body hlook
      exact hfree (k', body) hk'
    set M := mapInsert (mapRemove g.rules r) r' body with hM
    have hMclean : ∀ kb ∈ M, NodeOk r r' kb.2 := by
      intro kb hkb
      rcases mapInsert_mem (mapRemove g.rules r) r' body kb hkb with hkb | hkb
      · rw [hkb]
        exact hbody_clean
      · exact hfree kb (mapRemove_mem g.rules r kb hkb)
    have hnoop : M.map (fun kv => (kv.1, kv.2.rename_reference r r')) = M :=
      map_rename_noop r r' M (fun kb hkb => (hMclean kb hkb).1)
    have hrun : g.with_renamed_element r r' = .ok ⟨g.start, M⟩ := by
      unfold Grammar.with_renamed_element
      rw [if_neg (by rw [hhas]; simp), if_neg (by rw [hfresh]; simp), hlook]
      show (Except.ok ⟨g.start, (mapInsert (mapRemove g.rules r) r' body).map
        (fun kv => (kv.1, kv.2.rename_reference r r'))⟩ :
          Except String (Grammar T)) = _
      rw [← hM, hnoop]
    refine ⟨⟨g.start, M⟩, hrun, mapLookup_mapInsert_self _ r' body, ?_⟩
    intro src fuel
    have hagree : ∀ name, name ≠ r → name ≠ r' →
        mapLookup g.rules name = mapLookup M name := by
      intro name hn1 hn2
      rw [hM, mapLookup_mapInsert_ne _ r' name body hn2,
        mapLookup_mapRemove_ne _ r name hn1]
    have hbodies : ∀ name b, mapLookup g.rules name = some b → NodeOk r r' b := by
      intro name b hb
      obtain ⟨k', hk'⟩ := mapLookup_mem g.rules name b hb
      exact hfree (k', b) hk'
    have hok : configOk r r' (initConfig body) := by
      refine ⟨by intro f hf; simp [initConfig] at hf, ?_⟩
      intro n pos hn
      simp only [initConfig] at hn
      injection hn with h1 h2
      subst h1
      exact hbody_clean
    have := runSteps_agree TN g.rules M src r r' hagree hbodies fuel
      (initConfig body) hok
    simp only [Grammar.parse_non_term, mapLookup_mapInsert_self _ r' body, hlook]
    exact this.symm

/-- Witness for C8 at a concrete self-reference-free grammar: r = "a",
renamed to s, parsing "a". -/
theorem C8_rename_equivalence_witness :
    ∃ g2, Grammar.with_renamed_element
        (⟨none, [("r", Node.Terminal (Text.str "a"))]⟩ : Grammar Text) "r" "s" = .ok g2 ∧
      mapLookup g2.rules "s" = some (Node.Terminal (Text.str "a")) ∧
      (∀ src fuel, Grammar.parse_non_term textTerminal g2 "s" src fuel =
        Grammar.parse_non_term textTerminal
          (⟨none, [("r", Node.Terminal (Text.str "a"))]⟩ : Grammar Text) "r" src fuel) :=
  (C8_rename_equivalence textTerminal
    ⟨none, [("r", Node.Terminal (Text.str "a"))]⟩ "r" "s").2.2
    (Node.Terminal (Text.str "a")) rfl rfl
    (by
      intro kb hkb
      simp at hkb
      rw [hkb]
      exact ⟨rfl, rfl⟩)

/- ===== Claim C3: sequence-partial diagnostics (corrected) ===== -/

/-- The grammar of the C3 scenario: ("foo", ((" ", "bar")+)). -/
def c3Grammar : Node Text :=
  .Seq [.Terminal (.str "foo"),
        .Rep (.Seq [.Terminal (.str " "), .Terminal (.str "bar")]) (1, usizeMax)]

/-- C3 counterexample: on the grammar ("foo", ((" ", "bar")+)) and input
"foo", the parse does succeed with span 0..3, one child 0..3 and a single
Incomplete diagnostic at 3..3, but its expected string renders with no
parentheses around the repeated sequence — the string the claim demands,
( " " "bar" )+, is not the one the code produces (Node::to_ebnf for Rep 1..
appends + without parenthesizing the inner Seq). -/
theorem C3_counterexample :
    parse_recursive textTerminal [] "foo".data c3Grammar 200 =
      .ok (some (.mk ⟨0, 3⟩ none [] [] [.mk ⟨0, 3⟩ none [] [] []],
        [.Incomplete ⟨3, 3⟩ "\" \" \"bar\"+"])) ∧
    ("\" \" \"bar\"+" : String) ≠ "( \" \" \"bar\" )+" :=
  ⟨rfl, by decide⟩

/-- C3 as amended: when a Seq frame receives none after at least one child
matched, it finishes with a partial composite spanning first..last matched
child, appends exactly one Incomplete diagnostic with an empty span at the
failure offset whose expected string is the EBNF rendering of the first
unmatched child, and marks that child incomplete; concretely, the scenario
grammar on "foo" succeeds with span 0..3, one child 0..3, and the single
diagnostic Incomplete at 3..3 whose expected string is the code's rendering
" " "bar"+ (without the parentheses the original claim stated). -/
theorem C3_seq_partial_diagnostic {T : Type} (E : T → String)
    (elements : List (Node T)) (parsed : List Token)
    (diagnostics : List Diagnostic) (first last : Token) (expected : Node T)
    (hfirst : parsed.head? = some first) (hlast : parsed.getLast? = some last)
    (hexp : elements.get? parsed.length = some expected)
    (hne : elements.length ≠ 0) :
    pollSequence E none elements parsed diagnostics =
      .ok (.finished (some ⟨.mk ⟨first.span.start, last.span.stop⟩ none [] [] parsed,
        diagnostics ++ [.Incomplete ⟨last.span.stop, last.span.stop⟩ (expected.to_ebnf E)],
        some expected⟩)) ∧
    parse_recursive textTerminal [] "foo".data c3Grammar 200 =
      .ok (some (.mk ⟨0, 3⟩ none [] [] [.mk ⟨0, 3⟩ none [] [] []],
        [.Incomplete ⟨3, 3⟩ "\" \" \"bar\"+"])) := by
  refine ⟨?_, rfl⟩
  cases parsed with
  | nil => simp at hfirst
  | cons p0 prest =>
    simp only [pollSequence, pollSequenceNone, if_neg hne]
    simp only [List.isEmpty_cons]
    rw [hfirst, hlast, hexp]
    simp

/- ===== Claim C1: alternation selects the longest match ===== -/

theorem keyLtb_irrefl (a : Nat × Bool) : keyLtb a a = false := by
  obtain ⟨n, b⟩ := a
  cases b <;> simp [keyLtb]

theorem keyLtb_asymm {a b : Nat × Bool} (h : keyLtb a b = true) :
    keyLtb b a = false := by
  obtain ⟨n1, b1⟩ := a
  obtain ⟨n2, b2⟩ := b
  cases b1 <;> cases b2 <;> simp_all [keyLtb] <;> omega

theorem keyLtb_false_trans {a b c : Nat × Bool}
    (h1 : keyLtb a b = false) (h2 : keyLtb b c = false) :
    keyLtb a c = false := by
  obtain ⟨n1, b1⟩ := a
  obtain ⟨n2, b2⟩ := b
  obtain ⟨n3, b3⟩ := c
  cases b1 <;> cases b2 <;> cases b3 <;> simp_all [keyLtb] <;> omega

/-- The ascending sortedness relation used by poll_choice's sort: no later
element has a strictly smaller key. -/
def keyAsc {α : Type} (key : α → Nat × Bool) (a b : α) : Prop :=
  keyLtb (key b) (key a) = false

theorem sortInsert_perm {α : Type} (key : α → Nat × Bool) (x : α) :
    ∀ (l : List α), (sortInsert key x l).Perm (x :: l) := by
  intro l
  induction l with
  | nil => simp [sortInsert]
  | cons y ys ih =>
    simp only [sortInsert]
    by_cases h : keyLtb (key y) (key x) = true
    · rw [if_pos h]
      exact ((ih.cons y).trans (List.Perm.swap x y ys)).symm.symm
    · rw [if_neg h]

theorem sortByKey_perm {α : Type} (key : α → Nat × Bool) :
    ∀ (l : List α), (sortByKey key l).Perm l := by
  intro l
  induction l with
  | nil => simp [sortByKey]
  | cons x xs ih =>
    have : sortByKey key (x :: xs) = sortInsert key x (sortByKey key xs) := rfl
    rw [this]
    exact (sortInsert_perm key x (sortByKey key xs)).trans (ih.cons x)

theorem sortInsert_pairwise {α : Type} (key : α → Nat × Bool) (x : α) :
    ∀ (l : List α), l.Pairwise (keyAsc key) →
      (sortInsert key x l).Pairwise (keyAsc key) := by
  intro l
  induction l with
  | nil => intro _; simp [sortInsert, List.Pairwise]
  | cons y ys ih =>
    intro h
    rw [List.pairwise_cons] at h
    simp only [sortInsert]
    by_cases hxy : keyLtb (key y) (key x) = true
    · rw [if_pos hxy]
      rw [List.pairwise_cons]
      constructor
      · intro z hz
        rw [(sortInsert_perm key x ys).mem_iff] at hz
        rcases List.mem_cons.mp hz with hz | hz
        · subst hz; exact keyLtb_asymm hxy
        · exact h.1 z hz
      · exact ih h.2
    · rw [if_neg hxy]
      have hxyf : keyLtb (key y) (key x) = false :=
        Bool.eq_false_iff.mpr (fun hh => hxy hh)
      rw [List.pairwise_cons]
      constructor
      · intro z hz
        rcases List.mem_cons.mp hz with hz | hz
        · subst hz
          exact hxyf
        · exact keyLtb_false_trans (h.1 z hz) hxyf
      · exact List.pairwise_cons.mpr h

theorem sortByKey_pairwise {α : Type} (key : α → Nat × Bool) :
    ∀ (l : List α), (sortByKey key l).Pairwise (keyAsc key) := by
  intro l
  induction l with
  | nil => simp [sortByKey, List.Pairwise]
  | cons x xs ih => exact sortInsert_pairwise key x (sortByKey key xs) ih

/-- The last element of a pairwise-ascending list is, keywise, at least every
element of the list. -/
theorem pairwise_getLast_max {α : Type} (key : α → Nat × Bool) :
    ∀ (l : List α) (m : α), l.Pairwise (keyAsc key) → l.getLast? = some m →
      ∀ z ∈ l, keyLtb (key m) (key z) = false := by
  intro l
  induction l with
  | nil => intro m _ h; simp at h
  | cons a as ih =>
    intro m hp hl z hz
    cases as with
    | nil =>
      simp at hl
      subst hl
      simp at hz
      subst hz
      exact keyLtb_irrefl _
    | cons b bs =>
      rw [List.getLast?_cons_cons] at hl
      rw [List.pairwise_cons] at hp
      rcases List.mem_cons.mp hz with hz | hz
      · subst hz
        have hm : m ∈ b :: bs := List.mem_of_mem_getLast? hl
        have : keyLtb (key m) (key z) = false := hp.1 m hm
        exact this
      · exact ih m hp.2 hl z hz

/-- The successful alternatives paired with their indices, as poll_choice's
accumulator collects them while the trampoline walks the alternatives. -/
def indexedSomes {T : Type} : Nat → List (Option (Parsed T)) → List (Parsed T × Nat)
  | _, [] => []
  | i, some p :: rs => (p, i) :: indexedSomes (i + 1) rs
  | i, none :: rs => indexedSomes (i + 1) rs

theorem indexedSomes_map_fst {T : Type} :
    ∀ (i : Nat) (rs : List (Option (Parsed T))),
      (indexedSomes i rs).map Prod.fst = rs.filterMap id := by
  intro i rs
  induction rs generalizing i with
  | nil => rfl
  | cons r rest ih =>
    cases r with
    | some p => simp [indexedSomes, List.filterMap_cons, ih]
    | none => simp [indexedSomes, List.filterMap_cons, ih]

/-- Drive a choice frame through the per-alternative results in order, exactly
as the trampoline hands each alternative's outcome to poll_choice. -/
def choiceSteps {T : Type} (start_pos : Nat) (elements : List (Node T))
    (current : Nat) (parsedC : List (Parsed T × Nat)) :
    List (Option (Parsed T)) → Except String (Option (Parsed T))
  | [] => .error "ran out of alternative results"
  | r :: rs =>
    match pollChoice r start_pos elements current parsedC with
    | .error e => .error e
    | .ok (.finished p) => if rs.isEmpty then .ok p else .error "spurious extra results"
    | .ok (.feed f _ _) =>
      match f with
      | .choice sp el cur pc => choiceSteps sp el cur pc rs
      | _ => .error "unreachable: a choice frame always feeds a choice frame"

/-- The selection poll_choice performs once every alternative has been tried:
none when no alternative succeeded, otherwise the last element of the stable
sort by (end offset, incomplete-absent). -/
def choiceFinal {T : Type} (parsedC : List (Parsed T × Nat)) : Option (Parsed T) :=
  if parsedC.isEmpty then none
  else (sortByKey (fun pc => altKey pc.1) parsedC).getLast?.map (·.1)

theorem pollChoiceCont_done {T : Type} (start_pos : Nat) (elements : List (Node T))
    (current : Nat) (parsed : List (Parsed T × Nat))
    (h : current ≥ elements.length) :
    pollChoiceCont start_pos elements current parsed =
      .ok (.finished (choiceFinal parsed)) := by
  unfold pollChoiceCont choiceFinal
  rw [if_pos h]
  by_cases hemp : parsed.isEmpty
  · rw [if_pos hemp, if_pos hemp]
  · rw [if_neg hemp, if_neg hemp]

theorem pollChoiceCont_cont {T : Type} (start_pos : Nat) (elements : List (Node T))
    (current : Nat) (parsed : List (Parsed T × Nat)) (el : Node T)
    (h : current < elements.length) (hel : elements.get? current = some el) :
    pollChoiceCont start_pos elements current parsed =
      .ok (.feed (.choice start_pos elements current parsed) el start_pos) := by
  unfold pollChoiceCont
  rw [if_neg (by omega), hel]

theorem choiceSteps_eq {T : Type} (start_pos : Nat) (elements : List (Node T)) :
    ∀ (rs : List (Option (Parsed T))) (current : Nat) (parsedC : List (Parsed T × Nat)),
      current + rs.length = elements.length → current < elements.length →
      choiceSteps start_pos elements current parsedC rs =
        .ok (choiceFinal (parsedC ++ indexedSomes current rs)) := by
  intro rs
  induction rs with
  | nil =>
    intro current parsedC hlen hlt
    simp at hlen
    omega
  | cons r rest ih =>
    intro current parsedC hlen hlt
    have hne0 : elements.length ≠ 0 := by omega
    have hlen2 : current + (rest.length + 1) = elements.length := by
      simpa using hlen
    clear hlen
    have hlen' : current + 1 + rest.length = elements.length := by omega
    by_cases hdone : current + 1 ≥ elements.length
    · have hrest : rest = [] := by
        have : rest.length = 0 := by omega
        exact List.length_eq_zero.mp this
      subst hrest
      cases r with
      | none =>
        have hd := pollChoiceCont_done start_pos elements (current + 1)
          (parsedC ++ []) hdone
        simp only [choiceSteps, pollChoice, if_neg hne0, hd, List.isEmpty_nil,
          if_true, indexedSomes]
      | some p =>
        have hd := pollChoiceCont_done start_pos elements (current + 1)
          (parsedC ++ [(p, current)]) hdone
        simp only [choiceSteps, pollChoice, if_neg hne0, hd, List.isEmpty_nil,
          if_true, indexedSomes]
    · have hlt' : current + 1 < elements.length := by omega
      obtain ⟨el, hel⟩ : ∃ el, elements.get? (current + 1) = some el := by
        cases hg : elements.get? (current + 1) with
        | some el => exact ⟨el, rfl⟩
        | none => exact absurd (List.get?_eq_none.mp hg) (by omega)
      cases r with
      | none =>
        have hc := pollChoiceCont_cont start_pos elements (current + 1)
          (parsedC ++ []) el hlt' hel
        simp only [choiceSteps, pollChoice, if_neg hne0, hc]
        rw [ih (current + 1) (parsedC ++ []) hlen' hlt']
        simp [indexedSomes]
      | some p =>
        have hc := pollChoiceCont_cont start_pos elements (current + 1)
          (parsedC ++ [(p, current)]) el hlt' hel
        simp only [choiceSteps, pollChoice, if_neg hne0, hc]
        rw [ih (current + 1) (parsedC ++ [(p, current)]) hlen' hlt']
        simp [indexedSomes]

theorem keyLtb_false_le {a b : Nat × Bool} (h : keyLtb a b = false) : b.1 ≤ a.1 := by
  obtain ⟨n1, b1⟩ := a
  obtain ⟨n2, b2⟩ := b
  cases b1 <;> cases b2 <;> simp_all [keyLtb] <;> omega

theorem keyLtb_false_tie {a b : Nat × Bool} (h : keyLtb a b = false)
    (he : a.1 = b.1) (hb : b.2 = true) : a.2 = true := by
  obtain ⟨n1, b1⟩ := a
  obtain ⟨n2, b2⟩ := b
  cases b1 <;> cases b2 <;> simp_all [keyLtb]

/-- C1: feeding an Alt frame the per-alternative outcomes in declaration
order (each alternative parsed at the frame's saved start offset), the frame's
final answer is none when no alternative succeeded; otherwise it is one of the
successful candidates, its end offset is the maximum end offset over all
successful candidates, and whenever some candidate of that maximal end offset
carries no incomplete marker, the chosen one carries none either. -/
theorem C1_alt_longest_match {T : Type} (start_pos : Nat) (elements : List (Node T))
    (results : List (Option (Parsed T)))
    (hne : elements ≠ []) (hlen : results.length = elements.length) :
    (results.filterMap id = [] →
      choiceSteps start_pos elements 0 [] results = .ok none) ∧
    (results.filterMap id ≠ [] →
      ∃ p, choiceSteps start_pos elements 0 [] results = .ok (some p) ∧
        p ∈ results.filterMap id ∧
        (∀ q ∈ results.filterMap id, q.token.span.stop ≤ p.token.span.stop) ∧
        ((∃ q ∈ results.filterMap id,
            q.token.span.stop = p.token.span.stop ∧ q.incomplete = none) →
          p.incomplete = none)) := by
  have h0lt : 0 < elements.length := List.length_pos.mpr hne
  have hrun := choiceSteps_eq start_pos elements results 0 []
    (by omega) h0lt
  simp only [List.nil_append] at hrun
  set S : List (Parsed T × Nat) := indexedSomes 0 results with hS
  have hmapf : S.map Prod.fst = results.filterMap id := indexedSomes_map_fst 0 results
  constructor
  · intro hempty
    have hSnil : S = [] := by
      have : S.map Prod.fst = [] := by rw [hmapf, hempty]
      exact List.map_eq_nil.mp this
    rw [hrun, hSnil]
    rfl
  · intro hnonempty
    have hSne : S ≠ [] := fun hS0 => hnonempty (by rw [← hmapf, hS0]; rfl)
    set key : Parsed T × Nat → Nat × Bool := fun pc => altKey pc.1 with hkey
    have hperm : (sortByKey key S).Perm S := sortByKey_perm key S
    have hsortne : sortByKey key S ≠ [] := fun h0 =>
      hSne (List.Perm.nil_eq (h0 ▸ hperm)).symm
    obtain ⟨mi, hlast⟩ : ∃ mi, (sortByKey key S).getLast? = some mi := by
      cases hcase : (sortByKey key S).getLast? with
      | some mi => exact ⟨mi, rfl⟩
      | none => exact absurd (List.getLast?_eq_none_iff.mp hcase) hsortne
    have hfinal : choiceFinal S = some mi.1 := by
      unfold choiceFinal
      rw [if_neg (by simp [List.isEmpty_iff, hSne])]
      rw [hlast]
      rfl
    have hmax := pairwise_getLast_max key _ mi (sortByKey_pairwise key S) hlast
    have hmiS : mi ∈ S := hperm.mem_iff.mp (List.mem_of_mem_getLast? hlast)
    refine ⟨mi.1, by rw [hrun, hfinal], ?_, ?_, ?_⟩
    · rw [← hmapf]
      exact List.mem_map.mpr ⟨mi, hmiS, rfl⟩
    · intro q hq
      rw [← hmapf] at hq
      obtain ⟨qc, hqcS, hqc1⟩ := List.mem_map.mp hq
      have hqsorted : qc ∈ sortByKey key S := hperm.mem_iff.mpr hqcS
      have hk := hmax qc hqsorted
      have := keyLtb_false_le hk
      simp only [hkey, altKey, hqc1] at this
      exact this
    · rintro ⟨q, hq, hqstop, hqinc⟩
      rw [← hmapf] at hq
      obtain ⟨qc, hqcS, hqc1⟩ := List.mem_map.mp hq
      have hqsorted : qc ∈ sortByKey key S := hperm.mem_iff.mpr hqcS
      have hk := hmax qc hqsorted
      have htie := keyLtb_false_tie hk
        (by simp only [hkey, altKey, hqc1]; exact hqstop.symm)
        (by simp only [hkey, altKey, hqc1, hqinc]; rfl)
      simp only [hkey, altKey] at htie
      exact Option.isNone_iff_eq_none.mp htie

/-- Witness for C1: alternatives ("f" | "foo" | "bar") at offset 0 with the
outcomes of parsing "foo": matches of width 1 and 3 and a failure; the frame
selects the width-3 candidate. -/
theorem C1_alt_longest_match_witness :
    (∃ p, choiceSteps 0
          [Node.Terminal (Text.str "f"), Node.Terminal (Text.str "foo"),
           Node.Terminal (Text.str "bar")] 0 []
          [some (⟨.mk ⟨0, 1⟩ none [] [] [], [], none⟩ : Parsed Text),
           some ⟨.mk ⟨0, 3⟩ none [] [] [], [], none⟩,
           none] = .ok (some p) ∧
        p ∈ [some (⟨.mk ⟨0, 1⟩ none [] [] [], [], none⟩ : Parsed Text),
             some ⟨.mk ⟨0, 3⟩ none [] [] [], [], none⟩,
             none].filterMap id ∧
        (∀ q ∈ [some (⟨.mk ⟨0, 1⟩ none [] [] [], [], none⟩ : Parsed Text),
                some ⟨.mk ⟨0, 3⟩ none [] [] [], [], none⟩,
                none].filterMap id, q.token.span.stop ≤ p.token.span.stop) ∧
        ((∃ q ∈ [some (⟨.mk ⟨0, 1⟩ none [] [] [], [], none⟩ : Parsed Text),
                 some ⟨.mk ⟨0, 3⟩ none [] [] [], [], none⟩,
                 none].filterMap id,
            q.token.span.stop = p.token.span.stop ∧ q.incomplete = none) →
          p.incomplete = none)) :=
  (C1_alt_longest_match 0
    [Node.Terminal (Text.str "f"), Node.Terminal (Text.str "foo"),
     Node.Terminal (Text.str "bar")]
    [some ⟨.mk ⟨0, 1⟩ none [] [] [], [], none⟩,
     some ⟨.mk ⟨0, 3⟩ none [] [] [], [], none⟩,
     none]
    (by simp) (by simp)).2 (by simp)

/- ===== Claim C4: memoization ===== -/

theorem pollFrame_cache_monotone {T : Type} (TN : TerminalNode T)
    (frame : StackFrame T) (next : Option (Parsed T)) (cache : Cache T)
    (poll : StackPoll T) (cache' : Cache T)
    (h : pollFrame TN frame next cache = .ok (poll, cache'))
    (k : String × Nat) (v : Option (Parsed T))
    (hk : cacheLookup cache k = some v) : cacheLookup cache' k = some v := by
  cases frame with
  | seq elements parsed diagnostics =>
    simp only [pollFrame] at h
    cases hps : pollSequence TN.to_ebnf next elements parsed diagnostics with
    | ok r => rw [hps] at h; cases h; exact hk
    | error e => rw [hps] at h; cases h
  | choice start_pos elements current parsed =>
    simp only [pollFrame] at h
    cases hps : pollChoice next start_pos elements current parsed with
    | ok r => rw [hps] at h; cases h; exact hk
    | error e => rw [hps] at h; cases h
  | rep start_pos element range parsed diagnostics =>
    simp only [pollFrame] at h
    cases hps : pollRepetition TN.to_ebnf next element range parsed start_pos diagnostics with
    | ok r => rw [hps] at h; cases h; exact hk
    | error e => rw [hps] at h; cases h
  | nonTerm start_pos name =>
    simp only [pollFrame, pollNonTerminal] at h
    by_cases hc : (cacheLookup cache (name, start_pos)).isSome
    · rw [if_pos hc] at h
      cases h
      exact hk
    · rw [if_neg hc] at h
      cases h
      simp only [cacheLookup]
      by_cases hkk : (name, start_pos) = k
      · subst hkk
        rw [hk] at hc
        simp at hc
      · rw [if_neg hkk]
        exact hk
  | tagged tag =>
    simp only [pollFrame] at h
    cases h
    exact hk
  | meta m =>
    simp only [pollFrame] at h
    cases h
    exact hk

/-- C4: memoized resolutions of a non-terminal are consistent within one
parse.  (a) nodeAction on NonTerm(name) with the key (name, pos) present in
the cache is Pop(cached value) — no frame is pushed;  (b) when the first
resolution completes with the key absent, poll_non_terminal inserts the
wrapped result (or none) under the key (name, start offset), and that is the
value the frame finishes with;  (c) one trampoline step never changes or
drops an existing cache entry, so every later encounter at the same key sees
the value the first resolution inserted. -/
theorem C4_memoization {T : Type} (TN : TerminalNode T)
    (rules : List (String × Node T)) (src : List Char) :
    (∀ (name : String) (pos : Nat) (cache : Cache T) (cached : Option (Parsed T)),
      cacheLookup cache (name, pos) = some cached →
      nodeAction TN rules src (.NonTerm name) pos cache = .ok (.pop cached)) ∧
    (∀ (next : Option (Parsed T)) (name : String) (start_pos : Nat) (cache : Cache T),
      cacheLookup cache (name, start_pos) = none →
      pollNonTerminal next name start_pos cache =
        (.finished (next.map fun p =>
            ⟨.mk ⟨p.token.span.start, p.token.span.stop⟩ (some name) [] [] [p.token],
             p.diagnostics, p.incomplete⟩),
         ((name, start_pos),
          next.map fun p =>
            ⟨.mk ⟨p.token.span.start, p.token.span.stop⟩ (some name) [] [] [p.token],
             p.diagnostics, p.incomplete⟩) :: cache)) ∧
    (∀ (c c' : Config T) (k : String × Nat) (v : Option (Parsed T)),
      stepFn TN rules src c = .next c' →
      cacheLookup c.cache k = some v → cacheLookup c'.cache k = some v) := by
  refine ⟨?_, ?_, ?_⟩
  · intro name pos cache cached hc
    simp only [nodeAction, hc]
  · intro next name start_pos cache hc
    simp only [pollNonTerminal, hc]
    rfl
  · intro c c' k v hstep hk
    obtain ⟨cache0, stack0, step0⟩ := c
    unfold stepFn at hstep
    simp only at hstep hk
    by_cases hlim : stack0.length > 1000
    · rw [if_pos hlim] at hstep
      cases hstep
    · rw [if_neg hlim] at hstep
      cases step0 with
      | parsingNode node pos =>
        simp only [stepGo] at hstep
        cases hact : nodeAction TN rules src node pos cache0 with
        | error e => rw [hact] at hstep; cases hstep
        | ok a =>
          rw [hact] at hstep
          cases a with
          | push save next npos => cases hstep; exact hk
          | pop parsed => cases hstep; exact hk
      | polling parsed =>
        cases stack0 with
        | nil =>
          simp only [stepGo] at hstep
          cases hstep
        | cons frame rest =>
          simp only [stepGo] at hstep
          cases hpf : pollFrame TN frame parsed cache0 with
          | error e => rw [hpf] at hstep; cases hstep
          | ok pr =>
            obtain ⟨poll, cache1⟩ := pr
            rw [hpf] at hstep
            cases poll with
            | finished p =>
              cases hstep
              exact pollFrame_cache_monotone TN frame parsed cache0 _ _ hpf k v hk
            | feed f n pos =>
              cases hstep
              exact pollFrame_cache_monotone TN frame parsed cache0 _ _ hpf k v hk

/-- Witness for C4 at concrete data: a one-entry cache is consulted, an
insertion into the empty cache, and one concrete step preserving an entry. -/
theorem C4_memoization_witness :
    (nodeAction textTerminal [] "a".data (.NonTerm "r") 0
        [(("r", 0), (none : Option (Parsed Text)))] = .ok (.pop none)) ∧
    (pollNonTerminal (none : Option (Parsed Text)) "r" 0 [] =
      (.finished none, [(("r", 0), none)])) ∧
    (cacheLookup (Config.cache
        ⟨[(("r", 0), (none : Option (Parsed Text)))], [],
          .polling none⟩) ("r", 0) = some none) := by
  have h := C4_memoization textTerminal ([] : List (String × Node Text)) "a".data
  refine ⟨h.1 "r" 0 [(("r", 0), none)] none rfl, ?_, rfl⟩
  have h2 := h.2.1 none "r" 0 [] rfl
  simpa using h2

/-- Witness for C3 at a concrete sequence frame: elements ["a", "b"], one
child already matched. -/
theorem C3_seq_partial_diagnostic_witness :
    pollSequence Text.to_ebnf none
        [Node.Terminal (Text.str "a"), Node.Terminal (Text.str "b")]
        [Token.mk ⟨0, 1⟩ none [] [] []] [] =
      .ok (.finished (some ⟨.mk ⟨0, 1⟩ none [] [] [Token.mk ⟨0, 1⟩ none [] [] []],
        [.Incomplete ⟨1, 1⟩ ((Node.Terminal (Text.str "b")).to_ebnf Text.to_ebnf)],
        some (Node.Terminal (Text.str "b"))⟩)) ∧
    parse_recursive textTerminal [] "foo".data c3Grammar 200 =
      .ok (some (.mk ⟨0, 3⟩ none [] [] [.mk ⟨0, 3⟩ none [] [] []],
        [.Incomplete ⟨3, 3⟩ "\" \" \"bar\"+"])) := by
  have h := C3_seq_partial_diagnostic Text.to_ebnf
    [Node.Terminal (Text.str "a"), Node.Terminal (Text.str "b")]
    [Token.mk ⟨0, 1⟩ none [] [] []] [] (Token.mk ⟨0, 1⟩ none [] [] [])
    (Token.mk ⟨0, 1⟩ none [] [] []) (Node.Terminal (Text.str "b"))
    rfl rfl rfl (by decide)
  simpa using h

/- ===== Claim C2: termination and the zero-width repetition guard ===== -/

/-- The number of Feed transitions a frame can still perform: remaining
sequence elements, remaining alternatives to try, or remaining repetition
capacity (range.2 bounds the accumulated children; an unbounded Rep stores
usize::MAX there). -/
def frameW {T : Type} : StackFrame T → Nat
  | .seq elements parsed _ => elements.length - parsed.length
  | .choice _ elements current _ => elements.length - current
  | .rep _ _ range parsed _ => range.2 - parsed.length
  | .nonTerm _ _ => 0
  | .tagged _ => 0
  | .meta _ => 0

-- The largest feed width of a node or any of its subnodes.
mutual
def nodeMaxW {T : Type} : Node T → Nat
  | .Seq l => max l.length (listMaxW l)
  | .Alt l => max l.length (listMaxW l)
  | .Rep n range => max range.2 (nodeMaxW n)
  | .Terminal _ => 0
  | .NonTerm _ => 0
  | .Tagged n _ => nodeMaxW n
  | .Meta n _ => nodeMaxW n
def listMaxW {T : Type} : List (Node T) → Nat
  | [] => 0
  | n :: rest => max (nodeMaxW n) (listMaxW rest)
end

/-- The largest feed width over all rule bodies of a grammar. -/
def rulesMaxW {T : Type} : List (String × Node T) → Nat
  | [] => 0
  | kb :: rest => max (nodeMaxW kb.2) (rulesMaxW rest)

/-- A frame whose own feed width and all stored nodes are bounded by B. -/
def frameBnd {T : Type} (B : Nat) : StackFrame T → Prop
  | .seq elements _ _ => elements.length ≤ B ∧ ∀ n ∈ elements, nodeMaxW n ≤ B
  | .choice _ elements _ _ => elements.length ≤ B ∧ ∀ n ∈ elements, nodeMaxW n ≤ B
  | .rep _ element range _ _ => range.2 ≤ B ∧ nodeMaxW element ≤ B
  | .nonTerm _ _ => True
  | .tagged _ => True
  | .meta _ => True

/-- A step whose pending node (if any) is bounded by B. -/
def stepBnd {T : Type} (B : Nat) : Step T → Prop
  | .parsingNode node _ => nodeMaxW node ≤ B
  | .polling _ => True

/-- Every frame of the stack and the pending node are bounded by B. -/
def CBound {T : Type} (B : Nat) (c : Config T) : Prop :=
  (∀ f ∈ c.stack, frameBnd B f) ∧ stepBnd B c.step

/-- The measure budget of one full node evaluation with d free stack slots
left below the recursion limit. -/
def costA (B : Nat) : Nat → Nat
  | 0 => 1
  | d + 1 => (B + 3) * (costA B d + 1)

/-- Cost of a stack whose top frame sits at free capacity d; each deeper frame
has one more free slot above it. -/
def stackCost {T : Type} (B : Nat) : Nat → List (StackFrame T) → Nat
  | _, [] => 0
  | d, f :: rest => (frameW f + 1) * (costA B d + 1) + stackCost B (d + 1) rest

/-- Cost of the pending step at stack length L (limit 1000, so capacity
1001 - L). -/
def stepCost {T : Type} (B : Nat) (L : Nat) : Step T → Nat
  | .parsingNode _ _ => costA B (1001 - L)
  | .polling _ => 1

/-- The termination measure of the parse_recursive loop. -/
def phi {T : Type} (B : Nat) (c : Config T) : Nat :=
  stepCost B c.stack.length c.step + stackCost B (1001 - c.stack.length) c.stack

theorem listMaxW_of_mem {T : Type} {n : Node T} {l : List (Node T)}
    (h : n ∈ l) : nodeMaxW n ≤ listMaxW l := by
  induction l with
  | nil => cases h
  | cons x xs ih =>
    rcases List.mem_cons.mp h with rfl | h
    · simp only [listMaxW]
      exact le_max_left _ _
    · simp only [listMaxW]
      exact le_trans (ih h) (le_max_right _ _)

theorem rulesMaxW_of_mem {T : Type} {kb : String × Node T}
    {rules : List (String × Node T)} (h : kb ∈ rules) :
    nodeMaxW kb.2 ≤ rulesMaxW rules := by
  induction rules with
  | nil => cases h
  | cons x xs ih =>
    rcases List.mem_cons.mp h with rfl | h
    · simp only [rulesMaxW]
      exact le_max_left _ _
    · simp only [rulesMaxW]
      exact le_trans (ih h) (le_max_right _ _)

theorem costA_pos (B d : Nat) : 1 ≤ costA B d := by
  cases d with
  | zero => simp [costA]
  | succ e =>
    simp only [costA]
    have h := Nat.mul_le_mul (show 1 ≤ B + 3 by omega)
      (show 1 ≤ costA B e + 1 by omega)
    omega

theorem costA_two_le (B d : Nat) (hd : 1 ≤ d) : 2 ≤ costA B d := by
  obtain ⟨e, rfl⟩ : ∃ e, d = e + 1 := ⟨d - 1, by omega⟩
  simp only [costA]
  have hx := costA_pos B e
  have h := Nat.mul_le_mul (show 3 ≤ B + 3 by omega)
    (show 2 ≤ costA B e + 1 by omega)
  omega

/-- Pushing a frame of width w ≤ B at capacity d + 1 costs less than the
evaluation budget at capacity d + 1: the child budget plus the new frame's
polling budget fit. -/
theorem costA_push_lt (B d w : Nat) (hw : w ≤ B) :
    costA B d + (w + 1) * (costA B d + 1) < costA B (d + 1) := by
  have h1 : (w + 1) * (costA B d + 1) ≤ (B + 1) * (costA B d + 1) :=
    Nat.mul_le_mul_right _ (by omega)
  have h2 : (B + 3) * (costA B d + 1) =
      (B + 1) * (costA B d + 1) + (costA B d + 1) + (costA B d + 1) := by ring
  simp only [costA]
  omega

/-- Feeding from a frame whose width strictly dropped costs less than the
frame's released budget. -/
theorem costA_feed_lt (B d a b : Nat) (hab : a < b) :
    costA B d + (a + 1) * (costA B d + 1) < 1 + (b + 1) * (costA B d + 1) := by
  have h1 : (a + 1) * (costA B d + 1) ≤ b * (costA B d + 1) :=
    Nat.mul_le_mul_right _ (by omega)
  have h2 : (b + 1) * (costA B d + 1) = b * (costA B d + 1) + costA B d + 1 := by
    ring
  omega

theorem frameW_le {T : Type} {B : Nat} {f : StackFrame T}
    (h : frameBnd B f) : frameW f ≤ B := by
  cases f with
  | seq elements parsed diags =>
    simp only [frameBnd] at h
    simp only [frameW]
    omega
  | choice sp elements cur pc =>
    simp only [frameBnd] at h
    simp only [frameW]
    omega
  | rep sp element range parsed diags =>
    simp only [frameBnd] at h
    simp only [frameW]
    omega
  | nonTerm sp name => simp [frameW]
  | tagged tag => simp [frameW]
  | meta m => simp [frameW]

/-- One successful loop iteration preserves the width bound and strictly
decreases the termination measure phi. -/
theorem stepFn_decreases {T : Type} (TN : TerminalNode T)
    (rules : List (String × Node T)) (src : List Char) (B : Nat)
    (hRB : ∀ kb ∈ rules, nodeMaxW kb.2 ≤ B)
    (c c' : Config T) (hC : CBound B c)
    (h : stepFn TN rules src c = .next c') :
    CBound B c' ∧ phi B c' < phi B c := by
  obtain ⟨cache, stack, step⟩ := c
  obtain ⟨hsok, hstep⟩ := hC
  unfold stepFn at h
  simp only at h
  by_cases hlim : stack.length > 1000
  · rw [if_pos hlim] at h
    cases h
  · rw [if_neg hlim] at h
    have hL : stack.length ≤ 1000 := by omega
    cases step with
    | parsingNode node pos =>
      have hnode : nodeMaxW node ≤ B := hstep
      simp only [stepGo] at h
      cases ha : nodeAction TN rules src node pos cache with
      | error e => rw [ha] at h; cases h
      | ok act =>
        rw [ha] at h
        cases act with
        | pop parsed =>
          cases h
          refine ⟨⟨hsok, trivial⟩, ?_⟩
          simp only [phi, stepCost]
          have h2 : 2 ≤ costA B (1001 - stack.length) :=
            costA_two_le B _ (by omega)
          omega
        | push save next npos =>
          cases h
          have hfrom := nodeAction_push_from TN rules src node pos cache
            save next npos ha
          have hsave : frameBnd B save ∧ nodeMaxW next ≤ B := by
            rcases hfrom with ⟨seq, hns, hsv, hmem⟩ | ⟨seq, hns, hsv, hmem⟩ |
              ⟨inner, range, hns, hsv, hin⟩ | ⟨name, hns, hsv, _, hlook⟩ |
              ⟨inner, tag, hns, hsv, hin⟩ | ⟨inner, m, hns, hsv, hin⟩
            · subst hns; subst hsv
              simp only [nodeMaxW] at hnode
              refine ⟨⟨le_trans (le_max_left _ _) hnode, ?_⟩, ?_⟩
              · intro n hn
                exact le_trans (listMaxW_of_mem hn)
                  (le_trans (le_max_right _ _) hnode)
              · exact le_trans (listMaxW_of_mem hmem)
                  (le_trans (le_max_right _ _) hnode)
            · subst hns; subst hsv
              simp only [nodeMaxW] at hnode
              refine ⟨⟨le_trans (le_max_left _ _) hnode, ?_⟩, ?_⟩
              · intro n hn
                exact le_trans (listMaxW_of_mem hn)
                  (le_trans (le_max_right _ _) hnode)
              · exact le_trans (listMaxW_of_mem hmem)
                  (le_trans (le_max_right _ _) hnode)
            · subst hns; subst hsv; subst hin
              simp only [nodeMaxW] at hnode
              exact ⟨⟨le_trans (le_max_left _ _) hnode,
                le_trans (le_max_right _ _) hnode⟩,
                le_trans (le_max_right _ _) hnode⟩
            · subst hns; subst hsv
              obtain ⟨k', hk'⟩ := mapLookup_mem rules name next hlook
              exact ⟨trivial, hRB (k', next) hk'⟩
            · subst hns; subst hsv; subst hin
              simp only [nodeMaxW] at hnode
              exact ⟨trivial, hnode⟩
            · subst hns; subst hsv; subst hin
              simp only [nodeMaxW] at hnode
              exact ⟨trivial, hnode⟩
          refine ⟨⟨?_, hsave.2⟩, ?_⟩
          · intro f hf
            rcases List.mem_cons.mp hf with rfl | hf
            · exact hsave.1
            · exact hsok f hf
          · simp only [phi, stepCost, List.length_cons]
            have hd1 : 1001 - (stack.length + 1) = 1000 - stack.length := by
              omega
            have hd2 : 1001 - stack.length = (1000 - stack.length) + 1 := by
              omega
            rw [hd1, hd2]
            simp only [stackCost]
            have hkey := costA_push_lt B (1000 - stack.length) (frameW save)
              (frameW_le hsave.1)
            omega
    | polling parsed =>
      cases stack with
      | nil =>
        simp only [stepGo] at h
        cases h
      | cons frame rest =>
        simp only [List.length_cons] at hL
        simp only [stepGo] at h
        cases hp : pollFrame TN frame parsed cache with
        | error e => rw [hp] at h; cases h
        | ok pr =>
          rw [hp] at h
          obtain ⟨poll, cache2⟩ := pr
          cases poll with
          | finished p =>
            cases h
            refine ⟨⟨fun f hf => hsok f (List.mem_cons_of_mem _ hf), trivial⟩, ?_⟩
            simp only [phi, stepCost, List.length_cons]
            have hd : 1001 - rest.length = (1001 - (rest.length + 1)) + 1 := by
              omega
            rw [hd]
            simp only [stackCost]
            have hpos := Nat.mul_pos
              (show 0 < frameW frame + 1 by omega)
              (show 0 < costA B (1001 - (rest.length + 1)) + 1 by omega)
            omega
          | feed f n pos =>
            cases h
            have hframe : frameBnd B frame := hsok frame (List.mem_cons_self _ _)
            have hkey : frameBnd B f ∧ nodeMaxW n ≤ B ∧ frameW f < frameW frame := by
              rcases pollFrame_feed_from TN frame parsed cache f n pos cache2 hp with
                ⟨elements, parsed0, diags0, parsed', diags', hfr, hfr', hmem, hlen1, hlen2⟩ |
                ⟨sp, elements, cur, pc, pc', hfr, hfr', hmem, hlt⟩ |
                ⟨sp, element, range, parsed0, diags0, parsed', diags', hfr, hfr', hn, hlen1, hlen2⟩
              · subst hfr; subst hfr'
                simp only [frameBnd] at hframe
                refine ⟨hframe, hframe.2 n hmem, ?_⟩
                simp only [frameW]
                omega
              · subst hfr; subst hfr'
                simp only [frameBnd] at hframe
                refine ⟨hframe, hframe.2 n hmem, ?_⟩
                simp only [frameW]
                omega
              · subst hfr; subst hfr'; subst hn
                simp only [frameBnd] at hframe
                refine ⟨hframe, hframe.2, ?_⟩
                simp only [frameW]
                omega
            refine ⟨⟨?_, hkey.2.1⟩, ?_⟩
            · intro fr hfr
              rcases List.mem_cons.mp hfr with rfl | hfr
              · exact hkey.1
              · exact hsok fr (List.mem_cons_of_mem _ hfr)
            · simp only [phi, stepCost, List.length_cons]
              simp only [stackCost]
              have harith := costA_feed_lt B (1001 - (rest.length + 1))
                (frameW f) (frameW frame) hkey.2.2
              omega

/-- With fuel exceeding the measure, the trampoline does not time out. -/
theorem runSteps_no_timeout {T : Type} (TN : TerminalNode T)
    (rules : List (String × Node T)) (src : List Char) (B : Nat)
    (hRB : ∀ kb ∈ rules, nodeMaxW kb.2 ≤ B) :
    ∀ (n : Nat) (c : Config T), phi B c < n → CBound B c →
      runSteps TN rules src n c ≠ .timeout := by
  intro n
  induction n with
  | zero =>
    intro c hc _
    omega
  | succ m ih =>
    intro c hc hC
    simp only [runSteps]
    cases hs : stepFn TN rules src c with
    | done p => simp
    | fatal e => simp
    | next c' =>
      obtain ⟨hC', hlt⟩ := stepFn_decreases TN rules src B hRB c c' hC hs
      exact ih c' (by omega) hC'

/-- C2: for every grammar, start node, and finite source the trampoline
terminates with enough fuel — it returns a result (some or none) or a fatal
error, never a timeout — and inside a Rep frame a child result of zero width
(span.end ≤ span.start) is handled exactly like a none result, so a
repetition whose inner node matches zero-width stops instead of looping. -/
theorem C2_termination {T : Type} (TN : TerminalNode T)
    (rules : List (String × Node T)) (src : List Char) (start : Node T) :
    (∃ fuel, parse_recursive TN rules src start fuel ≠ .timeout) ∧
    (∀ (p : Parsed T) (element : Node T) (range : Nat × Nat)
        (parsed : List Token) (start_pos : Nat) (diagnostics : List Diagnostic),
      p.token.span.stop ≤ p.token.span.start →
      pollRepetition TN.to_ebnf (some p) element range parsed start_pos
          diagnostics =
        pollRepetition TN.to_ebnf none element range parsed start_pos
          diagnostics) := by
  constructor
  · refine ⟨phi (max (nodeMaxW start) (rulesMaxW rules)) (initConfig start) + 1, ?_⟩
    apply runSteps_no_timeout TN rules src (max (nodeMaxW start) (rulesMaxW rules))
    · intro kb hkb
      exact le_trans (rulesMaxW_of_mem hkb) (le_max_right _ _)
    · omega
    · refine ⟨?_, le_max_left _ _⟩
      intro f hf
      simp [initConfig] at hf
  · intro p element range parsed start_pos diagnostics hzw
    simp [pollRepetition, hzw]

/-- Witness for C2: an unbounded repetition of the empty string terminal (a
zero-width matcher) on source "a" terminates, and a zero-width child fed to a
Rep frame is handled like a none result. -/
theorem C2_termination_witness :
    (∃ fuel, parse_recursive textTerminal [] "a".data
        (Node.Rep (Node.Terminal (Text.str "")) (0, usizeMax)) fuel ≠
          .timeout) ∧
    pollRepetition textTerminal.to_ebnf
        (some ⟨Token.mk ⟨2, 2⟩ none [] [] [], [], none⟩)
        (Node.Terminal (Text.str "")) (0, usizeMax) [] 0 [] =
      pollRepetition textTerminal.to_ebnf none
        (Node.Terminal (Text.str "")) (0, usizeMax) [] 0 [] :=
  ⟨(C2_termination textTerminal [] "a".data
      (Node.Rep (Node.Terminal (Text.str "")) (0, usizeMax))).1,
   (C2_termination textTerminal [] "a".data
      (Node.Rep (Node.Terminal (Text.str "")) (0, usizeMax))).2
     ⟨Token.mk ⟨2, 2⟩ none [] [] [], [], none⟩ _ _ _ _ _ (by decide)⟩

/- ===== Claims C5 and C6: invariants of the produced token trees ===== -/

/-- Sibling chaining: each child ends no later than the next begins. -/
def chainB : List Token → Bool
  | [] => true
  | [_] => true
  | a :: b :: rest => decide (a.span.stop ≤ b.span.start) && chainB (b :: rest)

/-- Convex hull: the span runs from the first child's start to the last
child's end (trivially true with no children). -/
def hullB (span : Span) (children : List Token) : Bool :=
  match children.head?, children.getLast? with
  | some first, some last =>
      decide (span.start = first.span.start) && decide (span.stop = last.span.stop)
  | _, _ => true

/-- Rule-label shape: a gram-labelled token holds exactly one child and copies
its span. -/
def gramShapeB (span : Span) (gram : Option String) (children : List Token) :
    Bool :=
  match gram with
  | none => true
  | some _ =>
    match children with
    | [c] => decide (span.start = c.span.start) && decide (span.stop = c.span.stop)
    | _ => false

-- Well-formedness of a token tree: ordered span, sibling chaining, convex
-- hull, and the rule-label shape, at every node of the tree.
mutual
def Token.wfB : Token → Bool
  | .mk span gram _ _ children =>
      decide (span.start ≤ span.stop) && chainB children &&
      hullB span children && gramShapeB span gram children && wfListB children
def wfListB : List Token → Bool
  | [] => true
  | t :: rest => Token.wfB t && wfListB rest
end

/-- A well-formed parse result whose token starts at the offset the parse was
requested at. -/
def GoodP {T : Type} (pos : Nat) (p : Parsed T) : Prop :=
  Token.wfB p.token = true ∧ p.token.span.start = pos

/-- GoodP lifted to an optional result (a failed parse is always good). -/
def GoodRes {T : Type} (pos : Nat) : Option (Parsed T) → Prop
  | none => True
  | some p => GoodP pos p

/-- Positional coherence of one frame, given that the child computation it is
waiting on was started at offset cur: accumulated children are well formed and
chained, and the pending child starts where the last accumulated one ended. -/
def frameOK {T : Type} (cur : Nat) : StackFrame T → Prop
  | .seq _ [] _ => True
  | .seq _ (p0 :: prest) _ =>
      wfListB (p0 :: prest) = true ∧ chainB (p0 :: prest) = true ∧
      ∃ last, (p0 :: prest).getLast? = some last ∧ cur = last.span.stop
  | .choice sp _ _ pc => cur = sp ∧ ∀ pi ∈ pc, GoodP sp pi.1
  | .rep sp _ _ [] _ => cur = sp
  | .rep sp _ _ (p0 :: prest) _ =>
      wfListB (p0 :: prest) = true ∧ chainB (p0 :: prest) = true ∧
      p0.span.start = sp ∧
      ∃ last, (p0 :: prest).getLast? = some last ∧ cur = last.span.stop
  | .nonTerm sp _ => cur = sp
  | .tagged _ => True
  | .meta _ => True

/-- The offset at which a frame's own composite token will start once it
finishes. -/
def frameOrigin {T : Type} (cur : Nat) : StackFrame T → Nat
  | .seq _ [] _ => cur
  | .seq _ (p0 :: _) _ => p0.span.start
  | .choice sp _ _ _ => sp
  | .rep sp _ _ _ _ => sp
  | .nonTerm sp _ => sp
  | .tagged _ => cur
  | .meta _ => cur

/-- Positional coherence of a whole stack below a computation at offset cur. -/
def StackOK {T : Type} : Nat → List (StackFrame T) → Prop
  | _, [] => True
  | cur, f :: rest => frameOK cur f ∧ StackOK (frameOrigin cur f) rest

/-- Every memoized entry is a well-formed result starting at its keyed
offset. -/
def CacheWF {T : Type} (cache : Cache T) : Prop :=
  ∀ k v, cacheLookup cache k = some v → GoodRes k.2 v

/-- Full well-formedness of a trampoline configuration. -/
def ConfigWF {T : Type} (c : Config T) : Prop :=
  CacheWF c.cache ∧
  match c.step with
  | .parsingNode _ pos => StackOK pos c.stack
  | .polling parsed => ∃ cur, GoodRes cur parsed ∧ StackOK cur c.stack

theorem wfB_le {t : Token} (h : Token.wfB t = true) :
    t.span.start ≤ t.span.stop := by
  cases t with
  | mk span gram tags meta children =>
    simp only [Token.wfB, Bool.and_eq_true, decide_eq_true_eq] at h
    exact h.1.1.1.1

theorem wfListB_mem {l : List Token} (h : wfListB l = true) :
    ∀ t ∈ l, Token.wfB t = true := by
  induction l with
  | nil => intro t ht; cases ht
  | cons a rest ih =>
    simp only [wfListB, Bool.and_eq_true] at h
    intro t ht
    rcases List.mem_cons.mp ht with rfl | ht
    · exact h.1
    · exact ih h.2 t ht

theorem wfListB_append {l : List Token} {t : Token}
    (hl : wfListB l = true) (ht : Token.wfB t = true) :
    wfListB (l ++ [t]) = true := by
  induction l with
  | nil => simp [wfListB, ht]
  | cons a rest ih =>
    simp only [wfListB, Bool.and_eq_true] at hl
    simp only [List.cons_append, wfListB, Bool.and_eq_true]
    exact ⟨hl.1, ih hl.2⟩

theorem chainB_append {t : Token} : ∀ {l : List Token}, chainB l = true →
    (∀ last, l.getLast? = some last → last.span.stop ≤ t.span.start) →
    chainB (l ++ [t]) = true
  | [], _, _ => by simp [chainB]
  | [a], _, hl => by
      simp only [List.cons_append, List.nil_append, chainB, Bool.and_eq_true,
        decide_eq_true_eq]
      exact ⟨hl a rfl, trivial⟩
  | a :: b :: rest, hc, hl => by
      simp only [chainB, Bool.and_eq_true] at hc
      have hrec := chainB_append (l := b :: rest) hc.2
        (fun last h => hl last (by rw [List.getLast?_cons_cons]; exact h))
      simp only [List.cons_append, chainB, Bool.and_eq_true]
      refine ⟨hc.1, ?_⟩
      simpa using hrec

theorem chain_le : ∀ {l : List Token}, chainB l = true → wfListB l = true →
    ∀ {first last}, l.head? = some first → l.getLast? = some last →
    first.span.start ≤ last.span.stop
  | [], _, _, _, _, hh, _ => by cases hh
  | [a], _, hw, first, last, hh, hl => by
      injection hh with hh
      injection hl with hl
      subst hh
      subst hl
      simp only [wfListB, Bool.and_eq_true] at hw
      exact wfB_le hw.1
  | a :: b :: rest, hc, hw, first, last, hh, hl => by
      injection hh with hh
      subst hh
      simp only [chainB, Bool.and_eq_true, decide_eq_true_eq] at hc
      simp only [wfListB, Bool.and_eq_true] at hw
      rw [List.getLast?_cons_cons] at hl
      have hrec := chain_le hc.2 (by simp only [wfListB, Bool.and_eq_true]; exact hw.2)
        rfl hl
      have ha := wfB_le hw.1
      omega

theorem wfB_composite {first last : Token} {children : List Token}
    (hh : children.head? = some first) (hl : children.getLast? = some last)
    (hw : wfListB children = true) (hc : chainB children = true) :
    Token.wfB (.mk ⟨first.span.start, last.span.stop⟩ none [] [] children) =
      true := by
  have hle := chain_le hc hw hh hl
  simp only [Token.wfB, hullB, gramShapeB, Bool.and_eq_true]
  rw [hh, hl]
  simp [hle, hc, hw]

theorem GoodP_rep {T : Type} (sp : Nat) (parsed : List Token)
    (ds : List Diagnostic) (inc : Option (Node T))
    (hw : wfListB parsed = true) (hc : chainB parsed = true)
    (hstart : ∀ first, parsed.head? = some first → first.span.start = sp) :
    GoodP sp (⟨.mk ⟨repStart parsed sp, repEnd parsed sp⟩ none [] [] parsed,
      ds, inc⟩ : Parsed T) := by
  cases parsed with
  | nil =>
    refine ⟨?_, by simp [repStart, Token.span]⟩
    simp [Token.wfB, chainB, hullB, gramShapeB, wfListB, repStart, repEnd]
  | cons first rest =>
    cases hgl : (first :: rest).getLast? with
    | none => exact absurd (List.getLast?_eq_none_iff.mp hgl) (by simp)
    | some last =>
      have h1 : repStart (first :: rest) sp = first.span.start := by
        simp [repStart]
      have h2 : repEnd (first :: rest) sp = last.span.stop := by
        simp [repEnd, hgl]
      refine ⟨?_, ?_⟩
      · show Token.wfB (.mk ⟨repStart (first :: rest) sp,
          repEnd (first :: rest) sp⟩ none [] [] (first :: rest)) = true
        rw [h1, h2]
        exact wfB_composite rfl hgl hw hc
      · show (Span.mk (repStart (first :: rest) sp)
          (repEnd (first :: rest) sp)).start = sp
        rw [h1]
        exact hstart first rfl

/-- wfB ignores tags and meta. -/
theorem wfB_retag (s : Span) (g : Option String) (t t' : List String)
    (m m' : List (String × String)) (c : List Token) :
    Token.wfB (.mk s g t' m' c) = Token.wfB (.mk s g t m c) := rfl

theorem pollSequenceSome_finished_inv {T : Type} {elements : List (Node T)}
    {parsed : List Token} {diags : List Diagnostic} {inc : Option (Node T)}
    {p : Option (Parsed T)}
    (h : pollSequenceSome elements parsed diags inc = .ok (.finished p)) :
    ∃ first last, parsed.head? = some first ∧ parsed.getLast? = some last ∧
      elements.length = parsed.length ∧
      p = some ⟨.mk ⟨first.span.start, last.span.stop⟩ none [] [] parsed,
        diags, inc⟩ := by
  unfold pollSequenceSome at h
  by_cases hne : elements.length = parsed.length
  · rw [if_pos hne] at h
    cases h1 : parsed.head? <;> cases h2 : parsed.getLast? <;> rw [h1, h2] at h
    · cases h
    · cases h
    · cases h
    · rename_i first last
      simp only [Except.ok.injEq, StackPoll.finished.injEq] at h
      exact ⟨first, last, rfl, rfl, hne, h.symm⟩
  · rw [if_neg hne] at h
    cases h1 : parsed.getLast? <;> cases h2 : elements.get? parsed.length <;>
      rw [h1, h2] at h <;> simp at h

theorem pollSequenceNone_finished_inv {T : Type} {E : T → String}
    {elements : List (Node T)} {parsed : List Token} {diags : List Diagnostic}
    {p : Option (Parsed T)}
    (h : pollSequenceNone E elements parsed diags = .ok (.finished p)) :
    (parsed = [] ∧ p = none) ∨
    ∃ first last expected, parsed.head? = some first ∧
      parsed.getLast? = some last ∧
      elements.get? parsed.length = some expected ∧
      p = some ⟨.mk ⟨first.span.start, last.span.stop⟩ none [] [] parsed,
        diags ++ [.Incomplete ⟨last.span.stop, last.span.stop⟩
          (expected.to_ebnf E)],
        some expected⟩ := by
  unfold pollSequenceNone at h
  by_cases hemp : parsed.isEmpty
  · rw [if_pos hemp] at h
    simp only [Except.ok.injEq, StackPoll.finished.injEq] at h
    exact Or.inl ⟨List.isEmpty_iff.mp hemp, h.symm⟩
  · rw [if_neg hemp] at h
    right
    cases h1 : parsed.head? <;> cases h2 : parsed.getLast? <;>
      cases h3 : elements.get? parsed.length <;> rw [h1, h2, h3] at h
    · cases h
    · cases h
    · cases h
    · cases h
    · cases h
    · cases h
    · cases h
    · rename_i first last expected
      simp only [Except.ok.injEq, StackPoll.finished.injEq] at h
      exact ⟨first, last, expected, rfl, rfl, rfl, h.symm⟩

theorem pollRepetitionSome_finished_inv {T : Type} {element : Node T}
    {range : Nat × Nat} {parsed : List Token} {start_pos : Nat}
    {diags : List Diagnostic} {inc : Option (Node T)} {p : Option (Parsed T)}
    (h : pollRepetitionSome element range parsed start_pos diags inc =
      .ok (.finished p)) :
    range.2 ≤ parsed.length ∧
    p = some ⟨.mk ⟨repStart parsed start_pos, repEnd parsed start_pos⟩
      none [] [] parsed, diags, inc⟩ := by
  unfold pollRepetitionSome at h
  by_cases hge : parsed.length ≥ range.2
  · rw [if_pos hge] at h
    simp only [Except.ok.injEq, StackPoll.finished.injEq] at h
    exact ⟨hge, h.symm⟩
  · rw [if_neg hge] at h
    cases h1 : parsed.getLast? <;> rw [h1] at h <;> simp at h

theorem pollRepetitionNone_finished_inv {T : Type} {E : T → String}
    {element : Node T} {range : Nat × Nat} {parsed : List Token}
    {start_pos : Nat} {diags : List Diagnostic} {p : Option (Parsed T)}
    (h : pollRepetitionNone E element range parsed start_pos diags =
      .ok (.finished p)) :
    p = none ∨ ∃ ds inc,
      p = some ⟨.mk ⟨repStart parsed start_pos, repEnd parsed start_pos⟩
        none [] [] parsed, ds, inc⟩ := by
  unfold pollRepetitionNone at h
  by_cases h1 : parsed.length = 0 ∧ range.1 > 0
  · rw [if_pos h1] at h
    simp only [Except.ok.injEq, StackPoll.finished.injEq] at h
    exact Or.inl h.symm
  · rw [if_neg h1] at h
    by_cases h2 : parsed.length < range.1
    · rw [if_pos h2] at h
      simp only [Except.ok.injEq, StackPoll.finished.injEq] at h
      exact Or.inr ⟨_, _, h.symm⟩
    · rw [if_neg h2] at h
      simp only [Except.ok.injEq, StackPoll.finished.injEq] at h
      exact Or.inr ⟨_, _, h.symm⟩

theorem pollChoiceCont_finished_inv {T : Type} {start_pos : Nat}
    {elements : List (Node T)} {current : Nat}
    {parsed : List (Parsed T × Nat)} {p : Option (Parsed T)}
    (h : pollChoiceCont start_pos elements current parsed =
      .ok (.finished p)) :
    p = none ∨ ∃ q ∈ parsed, p = some q.1 := by
  unfold pollChoiceCont at h
  by_cases hge : current ≥ elements.length
  · rw [if_pos hge] at h
    by_cases hemp : parsed.isEmpty
    · rw [if_pos hemp] at h
      simp only [Except.ok.injEq, StackPoll.finished.injEq] at h
      exact Or.inl h.symm
    · rw [if_neg hemp] at h
      simp only [Except.ok.injEq, StackPoll.finished.injEq] at h
      cases hgl : (sortByKey (fun pc => altKey pc.1) parsed).getLast? with
      | none =>
        rw [hgl] at h
        exact Or.inl h.symm
      | some q =>
        rw [hgl] at h
        refine Or.inr ⟨q, ?_, h.symm⟩
        exact (sortByKey_perm (fun pc => altKey pc.1) parsed).mem_iff.mp
          (List.mem_of_mem_getLast? hgl)
  · rw [if_neg hge] at h
    cases h1 : elements.get? current <;> rw [h1] at h <;> simp at h

theorem nodeAction_pop_inv {T : Type} (TN : TerminalNode T)
    (rules : List (String × Node T)) (src : List Char) (node : Node T)
    (pos : Nat) (cache : Cache T) (parsed : Option (Parsed T))
    (h : nodeAction TN rules src node pos cache = .ok (.pop parsed)) :
    (∃ t e, node = .Terminal t ∧ TN.parses t src pos = .ok (some e) ∧
      parsed = some ⟨.mk ⟨pos, e⟩ none [] [] [], [], none⟩) ∨
    (∃ t, node = .Terminal t ∧ parsed = none) ∨
    (∃ name, node = .NonTerm name ∧
      cacheLookup cache (name, pos) = some parsed) := by
  cases node with
  | Seq seq =>
    simp only [nodeAction] at h
    cases hh : seq.head? <;> rw [hh] at h <;> simp at h
  | Alt seq =>
    simp only [nodeAction] at h
    cases hh : seq.head? <;> rw [hh] at h <;> simp at h
  | Rep inner range =>
    simp only [nodeAction] at h
    simp at h
  | Terminal t =>
    simp only [nodeAction] at h
    cases hp : TN.parses t src pos with
    | error e => rw [hp] at h; cases h
    | ok r =>
      rw [hp] at h
      cases r with
      | none =>
        simp only [Except.ok.injEq, Action.pop.injEq] at h
        exact Or.inr (Or.inl ⟨t, rfl, h.symm⟩)
      | some e =>
        simp only [Except.ok.injEq, Action.pop.injEq] at h
        exact Or.inl ⟨t, e, rfl, hp, h.symm⟩
  | NonTerm name =>
    simp only [nodeAction] at h
    cases hcl : cacheLookup cache (name, pos) with
    | some cached =>
      rw [hcl] at h
      simp only [Except.ok.injEq, Action.pop.injEq] at h
      exact Or.inr (Or.inr ⟨name, rfl, h ▸ hcl⟩)
    | none =>
      rw [hcl] at h
      cases hml : mapLookup rules name <;> rw [hml] at h <;> simp at h
  | Tagged inner tag =>
    simp only [nodeAction] at h
    simp at h
  | Meta inner m =>
    simp only [nodeAction] at h
    simp at h

theorem nodeAction_push_pos {T : Type} (TN : TerminalNode T)
    (rules : List (String × Node T)) (src : List Char) (node : Node T)
    (pos : Nat) (cache : Cache T) (save : StackFrame T) (next : Node T)
    (npos : Nat)
    (h : nodeAction TN rules src node pos cache = .ok (.push save next npos)) :
    npos = pos := by
  cases node with
  | Seq seq =>
    simp only [nodeAction] at h
    cases hh : seq.head? <;> rw [hh] at h
    · cases h
    · simp only [Except.ok.injEq, Action.push.injEq] at h
      exact h.2.2.symm
  | Alt seq =>
    simp only [nodeAction] at h
    cases hh : seq.head? <;> rw [hh] at h
    · cases h
    · simp only [Except.ok.injEq, Action.push.injEq] at h
      exact h.2.2.symm
  | Rep inner range =>
    simp only [nodeAction] at h
    simp only [Except.ok.injEq, Action.push.injEq] at h
    exact h.2.2.symm
  | Terminal t =>
    simp only [nodeAction] at h
    cases hp : TN.parses t src pos with
    | error e => rw [hp] at h; cases h
    | ok r =>
      rw [hp] at h
      cases r <;> simp at h
  | NonTerm name =>
    simp only [nodeAction] at h
    cases hcl : cacheLookup cache (name, pos) with
    | some cached => rw [hcl] at h; simp at h
    | none =>
      rw [hcl] at h
      cases hml : mapLookup rules name <;> rw [hml] at h
      · cases h
      · simp only [Except.ok.injEq, Action.push.injEq] at h
        exact h.2.2.symm
  | Tagged inner tag =>
    simp only [nodeAction] at h
    simp only [Except.ok.injEq, Action.push.injEq] at h
    exact h.2.2.symm
  | Meta inner m =>
    simp only [nodeAction] at h
    simp only [Except.ok.injEq, Action.push.injEq] at h
    exact h.2.2.symm

theorem stepGo_done_inv {T : Type} (TN : TerminalNode T)
    (rules : List (String × Node T)) (src : List Char) (cache : Cache T)
    (stack : List (StackFrame T)) (step : Step T) (p : Option (Parsed T))
    (h : stepGo TN rules src cache stack step = .done p) :
    step = .polling p ∧ stack = [] := by
  cases step with
  | parsingNode node pos =>
    simp only [stepGo] at h
    cases ha : nodeAction TN rules src node pos cache with
    | error e => rw [ha] at h; cases h
    | ok act =>
      rw [ha] at h
      cases act <;> cases h
  | polling parsed =>
    cases stack with
    | nil =>
      simp only [stepGo] at h
      injection h with h
      exact ⟨by rw [h], rfl⟩
    | cons frame rest =>
      simp only [stepGo] at h
      cases hp : pollFrame TN frame parsed cache with
      | error e => rw [hp] at h; cases h
      | ok pr =>
        rw [hp] at h
        obtain ⟨poll, cache2⟩ := pr
        cases poll <;> cases h

theorem cacheLookup_cons {T : Type} (k0 : String × Nat)
    (v0 : Option (Parsed T)) (cache : Cache T) (k : String × Nat) :
    cacheLookup ((k0, v0) :: cache) k =
      if k0 = k then some v0 else cacheLookup cache k := rfl

/-- One successful loop iteration preserves configuration well-formedness,
provided the terminal matcher only ever reports an end at or after the
requested position (as the Text instance does). -/
theorem stepFn_wf {T : Type} (TN : TerminalNode T)
    (rules : List (String × Node T)) (src : List Char)
    (hTN : ∀ t pos e, TN.parses t src pos = .ok (some e) → pos ≤ e)
    (c c' : Config T) (hW : ConfigWF c)
    (h : stepFn TN rules src c = .next c') : ConfigWF c' := by
  obtain ⟨cache, stack, step⟩ := c
  obtain ⟨hcw, hstep⟩ := hW
  unfold stepFn at h
  simp only at h
  by_cases hlim : stack.length > 1000
  · rw [if_pos hlim] at h
    cases h
  · rw [if_neg hlim] at h
    cases step with
    | parsingNode node pos =>
      have hS : StackOK pos stack := hstep
      simp only [stepGo] at h
      cases ha : nodeAction TN rules src node pos cache with
      | error e => rw [ha] at h; cases h
      | ok act =>
        rw [ha] at h
        cases act with
        | push save next npos =>
          cases h
          have hpos := nodeAction_push_pos TN rules src node pos cache
            save next npos ha
          subst hpos
          refine ⟨hcw, ?_⟩
          show StackOK npos (save :: stack)
          rcases nodeAction_push_from TN rules src node npos cache
              save next npos ha with
            ⟨seq, hns, hsv, hmem⟩ | ⟨seq, hns, hsv, hmem⟩ |
            ⟨inner, range, hns, hsv, hin⟩ | ⟨name, hns, hsv, _, hlook⟩ |
            ⟨inner, tag, hns, hsv, hin⟩ | ⟨inner, m, hns, hsv, hin⟩
          · subst hsv
            exact ⟨trivial, hS⟩
          · subst hsv
            exact ⟨⟨rfl, by intro pi hpi; cases hpi⟩, hS⟩
          · subst hsv
            exact ⟨rfl, hS⟩
          · subst hsv
            exact ⟨rfl, hS⟩
          · subst hsv
            exact ⟨trivial, hS⟩
          · subst hsv
            exact ⟨trivial, hS⟩
        | pop parsed =>
          cases h
          refine ⟨hcw, ?_⟩
          show ∃ cur, GoodRes cur parsed ∧ StackOK cur stack
          refine ⟨pos, ?_, hS⟩
          rcases nodeAction_pop_inv TN rules src node pos cache parsed ha with
            ⟨t, e, hns, hpe, hpar⟩ | ⟨t, hns, hpar⟩ | ⟨name, hns, hcl⟩
          · subst hpar
            refine ⟨?_, rfl⟩
            have hle := hTN t pos e hpe
            simp [Token.wfB, chainB, hullB, gramShapeB, wfListB, Token.span,
              hle]
          · subst hpar
            trivial
          · exact hcw (name, pos) parsed hcl
    | polling parsed =>
      have hPoll : ∃ cur, GoodRes cur parsed ∧ StackOK cur stack := hstep
      cases stack with
      | nil =>
        simp only [stepGo] at h
        cases h
      | cons frame rest =>
        obtain ⟨cur, hGR, hS⟩ := hPoll
        obtain ⟨hfOK, hSOK⟩ : frameOK cur frame ∧
            StackOK (frameOrigin cur frame) rest := hS
        simp only [stepGo] at h
        cases hp : pollFrame TN frame parsed cache with
        | error e => rw [hp] at h; cases h
        | ok pr =>
          rw [hp] at h
          obtain ⟨poll, cache2⟩ := pr
          cases poll with
          | finished p =>
            cases h
            cases frame with
            | seq elements parsed0 diags0 =>
              simp only [pollFrame] at hp
              cases hps : pollSequence TN.to_ebnf parsed elements parsed0
                  diags0 with
              | error e => rw [hps] at hp; simp [Except.map] at hp
              | ok r =>
                rw [hps] at hp
                simp only [Except.map, Except.ok.injEq, Prod.mk.injEq] at hp
                obtain ⟨hr, hcc⟩ := hp
                subst hr
                subst hcc
                refine ⟨hcw, ?_⟩
                show ∃ cur2, GoodRes cur2 p ∧ StackOK cur2 rest
                refine ⟨frameOrigin cur (.seq elements parsed0 diags0), ?_,
                  hSOK⟩
                unfold pollSequence at hps
                by_cases h0 : elements.length = 0
                · rw [if_pos h0] at hps
                  cases hps
                · rw [if_neg h0] at hps
                  cases hpar : parsed with
                  | none =>
                    rw [hpar] at hps
                    rcases pollSequenceNone_finished_inv hps with
                      ⟨hp0, hpn⟩ | ⟨first, last, expected, hh, hl, hexp, hpe⟩
                    · subst hpn
                      trivial
                    · subst hpe
                      cases parsed0 with
                      | nil => cases hh
                      | cons q0 qrest =>
                        obtain ⟨hwl, hcl2, last2, hgl2, hcur⟩ := hfOK
                        injection hh with hh
                        subst hh
                        exact ⟨wfB_composite rfl hl hwl hcl2, rfl⟩
                  | some p0 =>
                    rw [hpar] at hps
                    rw [hpar] at hGR
                    have hG : GoodP cur p0 := hGR
                    obtain ⟨first, last, hh, hl, hlen, hpe⟩ :=
                      pollSequenceSome_finished_inv hps
                    subst hpe
                    cases parsed0 with
                    | nil =>
                      simp only [List.nil_append] at hh hl ⊢
                      injection hh with hh
                      subst hh
                      refine ⟨wfB_composite rfl hl
                        (by simp [wfListB, hG.1]) rfl, ?_⟩
                      exact hG.2
                    | cons q0 qrest =>
                      obtain ⟨hwl, hcl2, last2, hgl2, hcur⟩ := hfOK
                      simp only [List.cons_append, List.head?_cons] at hh
                      injection hh with hh
                      subst hh
                      have hwl2 : wfListB ((q0 :: qrest) ++ [p0.token]) =
                          true := wfListB_append hwl hG.1
                      have hcl3 : chainB ((q0 :: qrest) ++ [p0.token]) =
                          true := by
                        apply chainB_append hcl2
                        intro last3 hlast3
                        rw [hgl2] at hlast3
                        injection hlast3 with hlast3
                        subst hlast3
                        rw [hG.2, hcur]
                      exact ⟨wfB_composite rfl hl hwl2 hcl3, rfl⟩
            | choice sp elements cur0 pc =>
              simp only [pollFrame] at hp
              cases hps : pollChoice parsed sp elements cur0 pc with
              | error e => rw [hps] at hp; simp [Except.map] at hp
              | ok r =>
                rw [hps] at hp
                simp only [Except.map, Except.ok.injEq, Prod.mk.injEq] at hp
                obtain ⟨hr, hcc⟩ := hp
                subst hr
                subst hcc
                obtain ⟨hcsp, hcand⟩ := hfOK
                subst hcsp
                refine ⟨hcw, ?_⟩
                show ∃ cur2, GoodRes cur2 p ∧ StackOK cur2 rest
                refine ⟨cur, ?_, hSOK⟩
                unfold pollChoice at hps
                by_cases h0 : elements.length = 0
                · rw [if_pos h0] at hps
                  cases hps
                · rw [if_neg h0] at hps
                  rcases pollChoiceCont_finished_inv hps with hpn | ⟨q, hq, hpe⟩
                  · subst hpn
                    trivial
                  · subst hpe
                    rcases List.mem_append.mp hq with hq | hq
                    · exact hcand q hq
                    · cases hpar : parsed with
                      | none =>
                        simp only [hpar] at hq
                        cases hq
                      | some p1 =>
                        simp only [hpar] at hq
                        rw [hpar] at hGR
                        have hq2 := List.mem_singleton.mp hq
                        subst hq2
                        exact hGR
            | rep sp element range parsed0 diags0 =>
              simp only [pollFrame] at hp
              cases hps : pollRepetition TN.to_ebnf parsed element range
                  parsed0 sp diags0 with
              | error e => rw [hps] at hp; simp [Except.map] at hp
              | ok r =>
                rw [hps] at hp
                simp only [Except.map, Except.ok.injEq, Prod.mk.injEq] at hp
                obtain ⟨hr, hcc⟩ := hp
                subst hr
                subst hcc
                refine ⟨hcw, ?_⟩
                show ∃ cur2, GoodRes cur2 p ∧ StackOK cur2 rest
                refine ⟨sp, ?_, hSOK⟩
                unfold pollRepetition at hps
                cases hz : (match parsed with
                  | some n => if n.token.span.stop ≤ n.token.span.start
                      then none else some n
                  | none => none) with
                | none =>
                  rw [hz] at hps
                  rcases pollRepetitionNone_finished_inv hps with
                    hpn | ⟨ds, inc, hpe⟩
                  · subst hpn
                    trivial
                  · subst hpe
                    cases parsed0 with
                    | nil =>
                      exact GoodP_rep sp [] ds inc rfl rfl
                        (by intro first hf; cases hf)
                    | cons q0 qrest =>
                      obtain ⟨hwl, hcl2, hq0, last2, hgl2, hcur⟩ := hfOK
                      exact GoodP_rep sp (q0 :: qrest) ds inc hwl hcl2
                        (by intro first hf; injection hf with hf;
                            subst hf; exact hq0)
                | some p0 =>
                  rw [hz] at hps
                  have hG : GoodP cur p0 := by
                    cases hpar : parsed with
                    | none =>
                      simp only [hpar] at hz
                      cases hz
                    | some p1 =>
                      simp only [hpar] at hz
                      by_cases hwz : p1.token.span.stop ≤ p1.token.span.start
                      · rw [if_pos hwz] at hz
                        cases hz
                      · rw [if_neg hwz] at hz
                        injection hz with hz
                        subst hz
                        rw [hpar] at hGR
                        exact hGR
                  obtain ⟨hge, hpe⟩ := pollRepetitionSome_finished_inv hps
                  subst hpe
                  cases parsed0 with
                  | nil =>
                    have hcsp : cur = sp := hfOK
                    exact GoodP_rep sp ([] ++ [p0.token]) _ _
                      (by simp [wfListB, hG.1]) rfl
                      (by intro first hf
                          simp only [List.nil_append, List.head?_cons] at hf
                          injection hf with hf
                          subst hf
                          rw [hG.2, hcsp])
                  | cons q0 qrest =>
                    obtain ⟨hwl, hcl2, hq0, last2, hgl2, hcur⟩ := hfOK
                    have hwl2 := wfListB_append hwl hG.1
                    have hcl3 : chainB ((q0 :: qrest) ++ [p0.token]) = true := by
                      apply chainB_append hcl2
                      intro last3 hlast3
                      rw [hgl2] at hlast3
                      injection hlast3 with hlast3
                      subst hlast3
                      rw [hG.2, hcur]
                    exact GoodP_rep sp ((q0 :: qrest) ++ [p0.token]) _ _
                      hwl2 hcl3
                      (by intro first hf
                          simp only [List.cons_append, List.head?_cons] at hf
                          injection hf with hf
                          subst hf
                          exact hq0)
            | nonTerm sp name =>
              have hcsp : cur = sp := hfOK
              subst hcsp
              simp only [pollFrame, pollNonTerminal, Except.ok.injEq,
                Prod.mk.injEq, StackPoll.finished.injEq] at hp
              obtain ⟨hpw, hcc⟩ := hp
              subst hpw
              have hGW : GoodRes cur (Option.map (fun p =>
                  (⟨.mk ⟨p.token.span.start, p.token.span.stop⟩ (some name)
                    [] [] [p.token], p.diagnostics, p.incomplete⟩ : Parsed T))
                  parsed) := by
                cases parsed with
                | none => trivial
                | some p1 =>
                  obtain ⟨tk, d1, i1⟩ := p1
                  cases tk with
                  | mk ts tg ttags tm tch =>
                    have hG : GoodP cur
                        (⟨.mk ts tg ttags tm tch, d1, i1⟩ : Parsed T) := hGR
                    refine ⟨?_, hG.2⟩
                    have hle : ts.start ≤ ts.stop := wfB_le hG.1
                    have hchild : Token.wfB (.mk ts tg ttags tm tch) = true :=
                      hG.1
                    simp only [Token.wfB]
                    simp [chainB, hullB, gramShapeB, wfListB, Token.span,
                      hle, hchild]
              refine ⟨?_, ⟨cur, hGW, hSOK⟩⟩
              by_cases hcl : (cacheLookup cache (name, cur)).isSome
              · rw [if_pos hcl] at hcc
                subst hcc
                exact hcw
              · rw [if_neg hcl] at hcc
                subst hcc
                intro k v hkv
                rw [cacheLookup_cons] at hkv
                by_cases hk : (name, cur) = k
                · rw [if_pos hk] at hkv
                  injection hkv with hkv
                  subst hkv
                  have hk2 : k.2 = cur := by rw [← hk]
                  rw [hk2]
                  exact hGW
                · rw [if_neg hk] at hkv
                  exact hcw k v hkv
            | tagged tag =>
              simp only [pollFrame, pollTagged] at hp
              cases hpar : parsed with
              | none =>
                rw [hpar] at hp
                simp only [Except.ok.injEq, Prod.mk.injEq,
                  StackPoll.finished.injEq] at hp
                obtain ⟨hpw, hcc⟩ := hp
                subst hpw
                subst hcc
                exact ⟨hcw, ⟨cur, trivial, hSOK⟩⟩
              | some p1 =>
                rw [hpar] at hGR
                obtain ⟨tk, d1, i1⟩ := p1
                cases tk with
                | mk s g tg m ch =>
                  rw [hpar] at hp
                  simp only [Except.ok.injEq, Prod.mk.injEq,
                    StackPoll.finished.injEq] at hp
                  obtain ⟨hpw, hcc⟩ := hp
                  subst hpw
                  subst hcc
                  have hG : GoodP cur
                      (⟨.mk s g tg m ch, d1, i1⟩ : Parsed T) := hGR
                  exact ⟨hcw, ⟨cur, ⟨hG.1, hG.2⟩, hSOK⟩⟩
            | meta m0 =>
              simp only [pollFrame, pollMeta] at hp
              cases hpar : parsed with
              | none =>
                rw [hpar] at hp
                simp only [Except.ok.injEq, Prod.mk.injEq,
                  StackPoll.finished.injEq] at hp
                obtain ⟨hpw, hcc⟩ := hp
                subst hpw
                subst hcc
                exact ⟨hcw, ⟨cur, trivial, hSOK⟩⟩
              | some p1 =>
                rw [hpar] at hGR
                obtain ⟨tk, d1, i1⟩ := p1
                cases tk with
                | mk s g tg m ch =>
                  rw [hpar] at hp
                  simp only [Except.ok.injEq, Prod.mk.injEq,
                    StackPoll.finished.injEq] at hp
                  obtain ⟨hpw, hcc⟩ := hp
                  subst hpw
                  subst hcc
                  have hG : GoodP cur
                      (⟨.mk s g tg m ch, d1, i1⟩ : Parsed T) := hGR
                  exact ⟨hcw, ⟨cur, ⟨hG.1, hG.2⟩, hSOK⟩⟩
          | feed f n pos2 =>
            cases h
            cases frame with
            | seq elements parsed0 diags0 =>
              simp only [pollFrame] at hp
              cases hps : pollSequence TN.to_ebnf parsed elements parsed0
                  diags0 with
              | error e => rw [hps] at hp; simp [Except.map] at hp
              | ok r =>
                rw [hps] at hp
                simp only [Except.map, Except.ok.injEq, Prod.mk.injEq] at hp
                obtain ⟨hr, hcc⟩ := hp
                subst hr
                subst hcc
                refine ⟨hcw, ?_⟩
                show StackOK pos2 (f :: rest)
                unfold pollSequence at hps
                by_cases h0 : elements.length = 0
                · rw [if_pos h0] at hps
                  cases hps
                · rw [if_neg h0] at hps
                  cases hpar : parsed with
                  | none =>
                    rw [hpar] at hps
                    exact (pollSequenceNone_no_feed hps).elim
                  | some p0 =>
                    rw [hpar] at hps
                    rw [hpar] at hGR
                    have hG : GoodP cur p0 := hGR
                    obtain ⟨hf, hn, hlen, last, hgl, hpos2⟩ :=
                      pollSequenceSome_feed_inv hps
                    subst hf
                    rw [List.getLast?_concat] at hgl
                    injection hgl with hgl
                    subst hgl
                    subst hpos2
                    cases parsed0 with
                    | nil =>
                      refine ⟨⟨by simp [wfListB, hG.1], rfl, p0.token,
                        by simp, rfl⟩, ?_⟩
                      show StackOK p0.token.span.start rest
                      rw [hG.2]
                      exact hSOK
                    | cons q0 qrest =>
                      obtain ⟨hwl, hcl2, last2, hgl2, hcur⟩ := hfOK
                      have hwl2 := wfListB_append hwl hG.1
                      have hcl3 : chainB ((q0 :: qrest) ++ [p0.token]) =
                          true := by
                        apply chainB_append hcl2
                        intro last3 hlast3
                        rw [hgl2] at hlast3
                        injection hlast3 with hlast3
                        subst hlast3
                        rw [hG.2, hcur]
                      exact ⟨⟨hwl2, hcl3, p0.token,
                        (show ((q0 :: qrest) ++ [p0.token]).getLast? =
                          some p0.token from List.getLast?_concat _), rfl⟩,
                        hSOK⟩
            | choice sp elements cur0 pc =>
              simp only [pollFrame] at hp
              cases hps : pollChoice parsed sp elements cur0 pc with
              | error e => rw [hps] at hp; simp [Except.map] at hp
              | ok r =>
                rw [hps] at hp
                simp only [Except.map, Except.ok.injEq, Prod.mk.injEq] at hp
                obtain ⟨hr, hcc⟩ := hp
                subst hr
                subst hcc
                obtain ⟨hcsp, hcand⟩ := hfOK
                subst hcsp
                refine ⟨hcw, ?_⟩
                show StackOK pos2 (f :: rest)
                unfold pollChoice at hps
                by_cases h0 : elements.length = 0
                · rw [if_pos h0] at hps
                  cases hps
                · rw [if_neg h0] at hps
                  obtain ⟨hf, hn, hlt, hpos2⟩ := pollChoiceCont_feed_inv hps
                  subst hf
                  subst hpos2
                  refine ⟨⟨rfl, ?_⟩, hSOK⟩
                  intro pi hpi
                  rcases List.mem_append.mp hpi with hpi | hpi
                  · exact hcand pi hpi
                  · cases hpar : parsed with
                    | none =>
                      simp only [hpar] at hpi
                      cases hpi
                    | some p1 =>
                      simp only [hpar] at hpi
                      rw [hpar] at hGR
                      have hpi2 := List.mem_singleton.mp hpi
                      subst hpi2
                      exact hGR
            | rep sp element range parsed0 diags0 =>
              simp only [pollFrame] at hp
              cases hps : pollRepetition TN.to_ebnf parsed element range
                  parsed0 sp diags0 with
              | error e => rw [hps] at hp; simp [Except.map] at hp
              | ok r =>
                rw [hps] at hp
                simp only [Except.map, Except.ok.injEq, Prod.mk.injEq] at hp
                obtain ⟨hr, hcc⟩ := hp
                subst hr
                subst hcc
                refine ⟨hcw, ?_⟩
                show StackOK pos2 (f :: rest)
                unfold pollRepetition at hps
                cases hz : (match parsed with
                  | some n => if n.token.span.stop ≤ n.token.span.start
                      then none else some n
                  | none => none) with
                | none =>
                  rw [hz] at hps
                  exact (pollRepetitionNone_no_feed hps).elim
                | some p0 =>
                  rw [hz] at hps
                  have hG : GoodP cur p0 := by
                    cases hpar : parsed with
                    | none =>
                      simp only [hpar] at hz
                      cases hz
                    | some p1 =>
                      simp only [hpar] at hz
                      by_cases hwz : p1.token.span.stop ≤ p1.token.span.start
                      · rw [if_pos hwz] at hz
                        cases hz
                      · rw [if_neg hwz] at hz
                        injection hz with hz
                        subst hz
                        rw [hpar] at hGR
                        exact hGR
                  obtain ⟨hf, hn, hlt, last, hgl, hpos2⟩ :=
                    pollRepetitionSome_feed_inv hps
                  subst hf
                  rw [List.getLast?_concat] at hgl
                  injection hgl with hgl
                  subst hgl
                  subst hpos2
                  cases parsed0 with
                  | nil =>
                    have hcsp : cur = sp := hfOK
                    refine ⟨⟨by simp [wfListB, hG.1], rfl,
                      by rw [hG.2, hcsp], p0.token, by simp, rfl⟩, hSOK⟩
                  | cons q0 qrest =>
                    obtain ⟨hwl, hcl2, hq0, last2, hgl2, hcur⟩ := hfOK
                    have hwl2 := wfListB_append hwl hG.1
                    have hcl3 : chainB ((q0 :: qrest) ++ [p0.token]) =
                        true := by
                      apply chainB_append hcl2
                      intro last3 hlast3
                      rw [hgl2] at hlast3
                      injection hlast3 with hlast3
                      subst hlast3
                      rw [hG.2, hcur]
                    refine ⟨⟨hwl2, hcl3, hq0, p0.token,
                      (show ((q0 :: qrest) ++ [p0.token]).getLast? =
                        some p0.token from List.getLast?_concat _), rfl⟩,
                      hSOK⟩
            | nonTerm sp name =>
              simp [pollFrame, pollNonTerminal] at hp
            | tagged tag =>
              simp only [pollFrame, pollTagged] at hp
              cases hpar : parsed with
              | none => rw [hpar] at hp; simp at hp
              | some p1 => rw [hpar] at hp; simp at hp
            | meta m0 =>
              simp only [pollFrame, pollMeta] at hp
              cases hpar : parsed with
              | none => rw [hpar] at hp; simp at hp
              | some p1 => rw [hpar] at hp; simp at hp

/-- A successful run from a well-formed configuration yields a well-formed
token. -/
theorem runSteps_wf {T : Type} (TN : TerminalNode T)
    (rules : List (String × Node T)) (src : List Char)
    (hTN : ∀ t pos e, TN.parses t src pos = .ok (some e) → pos ≤ e) :
    ∀ (fuel : Nat) (c : Config T) (tok : Token) (diags : List Diagnostic),
      ConfigWF c → runSteps TN rules src fuel c = .ok (some (tok, diags)) →
      Token.wfB tok = true := by
  intro fuel
  induction fuel with
  | zero =>
    intro c tok diags _ hrun
    simp only [runSteps] at hrun
    cases hrun
  | succ m ih =>
    intro c tok diags hW hrun
    simp only [runSteps] at hrun
    cases hs : stepFn TN rules src c with
    | fatal e =>
      rw [hs] at hrun
      cases hrun
    | next c2 =>
      rw [hs] at hrun
      exact ih c2 tok diags (stepFn_wf TN rules src hTN c c2 hW hs) hrun
    | done p =>
      rw [hs] at hrun
      obtain ⟨cache1, stack1, step1⟩ := c
      unfold stepFn at hs
      simp only at hs
      by_cases hlim : stack1.length > 1000
      · rw [if_pos hlim] at hs
        cases hs
      · rw [if_neg hlim] at hs
        obtain ⟨hpoll, hnil⟩ := stepGo_done_inv TN rules src cache1 stack1
          step1 p hs
        subst hpoll
        subst hnil
        obtain ⟨hcw, hstep⟩ := hW
        obtain ⟨cur, hGR, _⟩ : ∃ cur, GoodRes cur p ∧
            StackOK cur ([] : List (StackFrame T)) := hstep
        cases p with
        | none => simp at hrun
        | some pp =>
          simp at hrun
          obtain ⟨htok, hdiags⟩ := hrun
          rw [← htok]
          exact hGR.1

/-- The literal-string Text matcher never reports an end before the requested
position. -/
theorem text_parses_le (t : Text) (src : List Char) (pos e : Nat)
    (h : Text.parses t src pos = .ok (some e)) : pos ≤ e := by
  cases t with
  | str s =>
    simp only [Text.parses] at h
    split at h
    · simp only [Except.ok.injEq, Option.some.injEq] at h
      omega
    · simp at h
  | regex re => cases h

/-- C5: with a terminal matcher that consumes forward (as Text does), every
token of a tree produced by the parser is well formed: span.start ≤ span.end,
each child ends no later than its successor starts, and a parent's span is the
convex hull of its children when it has any (the second conjunct unfolds these
facts from the checker, recursively down the tree); a Rep composite that
accumulated no children finishes with an empty span positioned exactly at the
frame's entry offset (third conjunct). -/
theorem C5_span_invariants {T : Type} (TN : TerminalNode T)
    (rules : List (String × Node T)) (src : List Char)
    (hTN : ∀ t pos e, TN.parses t src pos = .ok (some e) → pos ≤ e) :
    (∀ (start : Node T) (fuel : Nat) (tok : Token) (diags : List Diagnostic),
      parse_recursive TN rules src start fuel = .ok (some (tok, diags)) →
      Token.wfB tok = true) ∧
    (∀ t : Token, Token.wfB t = true →
      t.span.start ≤ t.span.stop ∧
      chainB t.children = true ∧
      (∀ first last, t.children.head? = some first →
        t.children.getLast? = some last →
        t.span.start = first.span.start ∧ t.span.stop = last.span.stop) ∧
      (∀ ct ∈ t.children, Token.wfB ct = true)) ∧
    (∀ (E : T → String) (element : Node T) (range : Nat × Nat) (sp : Nat)
        (diags : List Diagnostic) (p : Parsed T),
      pollRepetition E none element range [] sp diags =
        .ok (.finished (some p)) →
      p.token.span.start = sp ∧ p.token.span.stop = sp ∧
        p.token.children = []) := by
  refine ⟨?_, ?_, ?_⟩
  · intro start fuel tok diags hrun
    exact runSteps_wf TN rules src hTN fuel (initConfig start) tok diags
      ⟨(fun k v hkv => by cases hkv), trivial⟩ hrun
  · intro t hwf
    cases t with
    | mk span gram tags meta children =>
      simp only [Token.wfB, Bool.and_eq_true, decide_eq_true_eq] at hwf
      obtain ⟨⟨⟨⟨hle, hchain⟩, hhull⟩, hgram⟩, hlist⟩ := hwf
      refine ⟨hle, hchain, ?_, ?_⟩
      · intro first last hh hl
        simp only [Token.children] at hh hl
        unfold hullB at hhull
        rw [hh, hl] at hhull
        simp only [Bool.and_eq_true, decide_eq_true_eq] at hhull
        exact hhull
      · intro ct hct
        exact wfListB_mem hlist ct hct
  · intro E element range sp diags p hrun
    have hrun2 : pollRepetitionNone E element range [] sp diags =
        .ok (.finished (some p)) := hrun
    unfold pollRepetitionNone at hrun2
    by_cases h1 : ([] : List Token).length = 0 ∧ range.1 > 0
    · rw [if_pos h1] at hrun2
      simp at hrun2
    · rw [if_neg h1] at hrun2
      have h2 : ¬(([] : List Token).length < range.1) := fun hlt =>
        h1 ⟨rfl, hlt⟩
      rw [if_neg h2] at hrun2
      simp only [Except.ok.injEq, StackPoll.finished.injEq,
        Option.some.injEq] at hrun2
      subst hrun2
      refine ⟨?_, ?_, ?_⟩ <;>
        simp [repStart, repEnd, Token.span, Token.children]

/-- Witness for C5: parsing "ab" with Seq("a", "b") yields the chained,
hull-spanning token tree, and a Rep(_, 0..=3) frame polled with none and no
accumulated children at entry offset 7 finishes with the empty span 7..7 and
no children. -/
theorem C5_span_invariants_witness :
    Token.wfB (Token.mk ⟨0, 2⟩ none [] []
      [Token.mk ⟨0, 1⟩ none [] [] [], Token.mk ⟨1, 2⟩ none [] [] []]) =
        true ∧
    ((Token.mk ⟨7, 7⟩ none [] [] [] : Token).span.start = 7 ∧
      (Token.mk ⟨7, 7⟩ none [] [] [] : Token).span.stop = 7 ∧
      (Token.mk ⟨7, 7⟩ none [] [] [] : Token).children = []) :=
  ⟨(C5_span_invariants textTerminal [] "ab".data
      (fun t pos e h => text_parses_le t "ab".data pos e h)).1
      (Node.Seq [.Terminal (.str "a"), .Terminal (.str "b")]) 50
      (Token.mk ⟨0, 2⟩ none [] []
        [Token.mk ⟨0, 1⟩ none [] [] [], Token.mk ⟨1, 2⟩ none [] [] []]) []
      rfl,
   (C5_span_invariants textTerminal [] "ab".data
      (fun t pos e h => text_parses_le t "ab".data pos e h)).2.2
      Text.to_ebnf (Node.Terminal (Text.str "x")) (0, 3) 7 []
      ⟨Token.mk ⟨7, 7⟩ none [] [] [], [], none⟩ rfl⟩

/-- C6: with a forward-consuming terminal matcher, every token of a produced
tree passes the checker, and in any checked tree a token with gram = some name
has exactly one child whose span it copies (conjuncts 1–2).  The NonTerm
frame's wrap is the only construction that writes a gram label: it stamps the
rule name onto a fresh one-child token (conjunct 3), while terminal tokens and
Seq/Rep composite tokens are built with gram = none (conjuncts 4–6) and an Alt
frame builds no token at all, returning one of its candidates' results
unchanged (conjunct 7). -/
theorem C6_gram_labelling {T : Type} (TN : TerminalNode T)
    (rules : List (String × Node T)) (src : List Char)
    (hTN : ∀ t pos e, TN.parses t src pos = .ok (some e) → pos ≤ e) :
    (∀ (start : Node T) (fuel : Nat) (tok : Token) (diags : List Diagnostic),
      parse_recursive TN rules src start fuel = .ok (some (tok, diags)) →
      Token.wfB tok = true) ∧
    (∀ (t : Token) (name : String), Token.wfB t = true →
      t.gram = some name →
      ∃ c, t.children = [c] ∧ t.span.start = c.span.start ∧
        t.span.stop = c.span.stop) ∧
    (∀ (p : Parsed T) (name : String) (sp : Nat) (cache : Cache T),
      (pollNonTerminal (some p) name sp cache).1 =
        .finished (some ⟨.mk ⟨p.token.span.start, p.token.span.stop⟩
          (some name) [] [] [p.token], p.diagnostics, p.incomplete⟩)) ∧
    (∀ (t : T) (pos e : Nat) (cache : Cache T),
      TN.parses t src pos = .ok (some e) →
      nodeAction TN rules src (.Terminal t) pos cache =
        .ok (.pop (some ⟨.mk ⟨pos, e⟩ none [] [] [], [], none⟩))) ∧
    (∀ (E : T → String) (next : Option (Parsed T)) (elements : List (Node T))
        (parsed : List Token) (diags : List Diagnostic) (p : Parsed T),
      pollSequence E next elements parsed diags = .ok (.finished (some p)) →
      p.token.gram = none) ∧
    (∀ (E : T → String) (next : Option (Parsed T)) (element : Node T)
        (range : Nat × Nat) (parsed : List Token) (sp : Nat)
        (diags : List Diagnostic) (p : Parsed T),
      pollRepetition E next element range parsed sp diags =
        .ok (.finished (some p)) →
      p.token.gram = none) ∧
    (∀ (next : Option (Parsed T)) (sp : Nat) (elements : List (Node T))
        (cur : Nat) (pc : List (Parsed T × Nat)) (p : Parsed T),
      pollChoice next sp elements cur pc = .ok (.finished (some p)) →
      p ∈ (pc ++ (match next with
        | some q => [(q, cur)] | none => [])).map (fun qc => qc.1)) := by
  refine ⟨?_, ?_, ?_, ?_, ?_, ?_, ?_⟩
  · intro start fuel tok diags hrun
    exact runSteps_wf TN rules src hTN fuel (initConfig start) tok diags
      ⟨(fun k v hkv => by cases hkv), trivial⟩ hrun
  · intro t name hwf hgr
    cases t with
    | mk span gram tags meta children =>
      simp only [Token.gram] at hgr
      subst hgr
      simp only [Token.wfB, Bool.and_eq_true] at hwf
      obtain ⟨⟨⟨⟨hle, hchain⟩, hhull⟩, hgram⟩, hlist⟩ := hwf
      unfold gramShapeB at hgram
      cases children with
      | nil => simp at hgram
      | cons c crest =>
        cases crest with
        | nil =>
          simp only [Bool.and_eq_true, decide_eq_true_eq] at hgram
          exact ⟨c, rfl, hgram.1, hgram.2⟩
        | cons c2 crest2 => simp at hgram
  · intro p name sp cache
    rfl
  · intro t pos e cache hp
    simp only [nodeAction, hp]
  · intro E next elements parsed diags p h
    unfold pollSequence at h
    by_cases h0 : elements.length = 0
    · rw [if_pos h0] at h
      cases h
    · rw [if_neg h0] at h
      cases next with
      | some p0 =>
        obtain ⟨first, last, hh, hl, hlen, hpe⟩ :=
          pollSequenceSome_finished_inv h
        injection hpe with hpe
        subst hpe
        rfl
      | none =>
        rcases pollSequenceNone_finished_inv h with ⟨_, hpn⟩ |
          ⟨first, last, expected, hh, hl, hexp, hpe⟩
        · cases hpn
        · injection hpe with hpe
          subst hpe
          rfl
  · intro E next element range parsed sp diags p h
    unfold pollRepetition at h
    cases hz : (match next with
      | some n => if n.token.span.stop ≤ n.token.span.start
          then none else some n
      | none => none) with
    | none =>
      rw [hz] at h
      rcases pollRepetitionNone_finished_inv h with hpn | ⟨ds, inc, hpe⟩
      · cases hpn
      · injection hpe with hpe
        subst hpe
        rfl
    | some p0 =>
      rw [hz] at h
      obtain ⟨hge, hpe⟩ := pollRepetitionSome_finished_inv h
      injection hpe with hpe
      subst hpe
      rfl
  · intro next sp elements cur pc p h
    unfold pollChoice at h
    by_cases h0 : elements.length = 0
    · rw [if_pos h0] at h
      cases h
    · rw [if_neg h0] at h
      rcases pollChoiceCont_finished_inv h with hpn | ⟨q, hq, hpe⟩
      · cases hpn
      · injection hpe with hpe
        subst hpe
        exact List.mem_map.mpr ⟨q, hq, rfl⟩

/-- Witness for C6: parsing "a" from rule r wraps the terminal match in a
gram = "r" token; the checker certifies its one-child shape; a terminal match
at offset 0 of width 1 pops an unlabelled token. -/
theorem C6_gram_labelling_witness :
    Token.wfB (Token.mk ⟨0, 1⟩ (some "r") [] []
      [Token.mk ⟨0, 1⟩ none [] [] []]) = true ∧
    (∃ c, (Token.mk ⟨0, 1⟩ (some "r") [] []
        [Token.mk ⟨0, 1⟩ none [] [] []] : Token).children = [c] ∧
      (Token.mk ⟨0, 1⟩ (some "r") [] []
        [Token.mk ⟨0, 1⟩ none [] [] []] : Token).span.start = c.span.start ∧
      (Token.mk ⟨0, 1⟩ (some "r") [] []
        [Token.mk ⟨0, 1⟩ none [] [] []] : Token).span.stop = c.span.stop) ∧
    nodeAction textTerminal [("r", Node.Terminal (Text.str "a"))] "a".data
        (.Terminal (Text.str "a")) 0 [] =
      .ok (.pop (some ⟨.mk ⟨0, 1⟩ none [] [] [], [], none⟩)) :=
  ⟨(C6_gram_labelling textTerminal [("r", Node.Terminal (Text.str "a"))]
      "a".data (fun t pos e h => text_parses_le t "a".data pos e h)).1
      (Node.NonTerm "r") 50
      (Token.mk ⟨0, 1⟩ (some "r") [] [] [Token.mk ⟨0, 1⟩ none [] [] []]) []
      rfl,
   (C6_gram_labelling textTerminal [("r", Node.Terminal (Text.str "a"))]
      "a".data (fun t pos e h => text_parses_le t "a".data pos e h)).2.1
      (Token.mk ⟨0, 1⟩ (some "r") [] [] [Token.mk ⟨0, 1⟩ none [] [] []]) "r"
      (by decide) rfl,
   (C6_gram_labelling textTerminal [("r", Node.Terminal (Text.str "a"))]
      "a".data (fun t pos e h => text_parses_le t "a".data pos e h)).2.2.2.1
      (Text.str "a") 0 1 [] rfl⟩

end Yap
